import Mathlib

/-!
Verification of the pattern-matching trace engine of
`Pattern_Matching_Visualizer` (src/src/App.jsx).

The engine builds, for a text and a pattern, the complete step trace of the
KMP resp. Boyer-Moore substring search together with the list of match
positions, the KMP failure table, and the Boyer-Moore bad-character and
good-suffix tables.  We embed those functions here over `List Char`
(JS strings are 0-indexed character sequences) and `Nat`
(all JS numbers involved are provably non-negative integers; every
`a - b` below occurs where the source guarantees `b ≤ a`, so `Nat`
subtraction agrees with JS number subtraction).  The JS while-loops are
embedded with an explicit fuel argument that is large enough for the loop
to run to completion (proved where a claim needs it).

The dynamically shaped JS step objects (fields present or absent depending
on the push site) are embedded as a structure of `Option` fields plus a
`kind` tag carrying exactly the data that the `action`/`summary` strings
of the corresponding push site record.
-/

namespace PatVis

/-- One atomic character comparison as recorded in the JS step objects.
The JS field `match` is named `isMatch` here (`match` is a Lean keyword). -/
structure Comparison where
  textIndex : Nat
  patternIndex : Nat
  isMatch : Bool
deriving DecidableEq, Repr

/-- Tag for the step variants pushed by the generators, carrying the numeric
data that the JS `action`/`summary` strings record at each push site. -/
inductive StepKind where
  | align : StepKind
  | compare : StepKind
  | fallback (oldj newj : Nat) : StepKind
  | increment : StepKind
  | matchFound (pos : Nat) : StepKind
  | shiftDecision (bcShift gsShift : Option Nat) (chosen : Nat) : StepKind
  | complete : StepKind
deriving DecidableEq, Repr

/-- A step record: the JS objects' optional fields, mirrored one to one. -/
structure Step where
  kind : StepKind
  windowStart : Option Nat
  windowEnd : Option Nat
  compareIndex : Option Nat
  lastComparison : Option Comparison
  lastMatch : Option Bool
deriving DecidableEq, Repr

/-- Loop body of `computeLPS` (src/src/App.jsx:376-401).  State: the `lps`
array, the textual preprocessing log, the cursors `len` and `i`.  The JS
`lps[len - 1]` read occurs only under the guard `len !== 0`.  Fuel is
consumed once per loop iteration. -/
def lpsGo (p : List Char) : Nat → List Nat → List String → Nat → Nat →
    List Nat × List String
  | 0, lps, log, _, _ => (lps, log)
  | fuel + 1, lps, log, len, i =>
    if i < p.length then
      let log1 := log ++ ["Compare p[" ++ toString i ++ "] with p[" ++ toString len ++ "]"]
      if p.getD i ' ' = p.getD len ' ' then
        lpsGo p fuel (lps.set i (len + 1))
          (log1 ++ ["Match -> lps[" ++ toString i ++ "] = " ++ toString (len + 1)])
          (len + 1) (i + 1)
      else if len ≠ 0 then
        lpsGo p fuel lps
          (log1 ++ ["Fallback len to " ++ toString (lps.getD (len - 1) 0)])
          (lps.getD (len - 1) 0) i
      else
        lpsGo p fuel (lps.set i 0)
          (log1 ++ ["Set lps[" ++ toString i ++ "] = 0"]) 0 (i + 1)
    else (lps, log)

/-- `computeLPS` (src/src/App.jsx:376-401): the KMP failure table and its
preprocessing log.  The loop runs `i` from 1 while `i < p.length`; each
iteration decreases `2 * (p.length - i) + len` by at least one, so fuel
`2 * p.length + 1` always lets it run to completion. -/
def computeLPS (p : List Char) : List Nat × List String :=
  lpsGo p (2 * p.length + 1) (List.replicate p.length 0) [] 0 1

/-- Loop body of the search loop of `buildKMPSteps` (src/src/App.jsx:404-451),
producing the pushed steps and matches forward.  State: cursors `i`, `j`.
JS `j = lps[j - 1] ?? 0` is `lps.getD (j - 1) 0`.  In every reachable state
`j ≤ i`, so `i - j` agrees with the JS window-start arithmetic. -/
def kmpGo (t p : List Char) (lps : List Nat) : Nat → Nat → Nat →
    List Step × List Nat
  | 0, _, _ => ([], [])
  | fuel + 1, i, j =>
    if i < t.length then
      let b := t.getD i ' ' == p.getD j ' '
      let cmp : Step := ⟨.compare, some (i - j), some (i - j + p.length - 1),
        some i, some ⟨i, j, b⟩, some b⟩
      if b then
        if j + 1 = p.length then
          let start := i + 1 - p.length
          let rest := kmpGo t p lps fuel (i + 1) (lps.getD (p.length - 1) 0)
          (cmp :: ⟨.matchFound start, some start, some (start + p.length - 1),
              none, none, none⟩ :: rest.1,
           start :: rest.2)
        else
          let rest := kmpGo t p lps fuel (i + 1) (j + 1)
          (cmp :: rest.1, rest.2)
      else
        if j ≠ 0 then
          let j2 := lps.getD (j - 1) 0
          let rest := kmpGo t p lps fuel i j2
          (cmp :: ⟨.fallback j j2, some (i - j2), some (i - j2 + p.length - 1),
              none, none, none⟩ :: rest.1,
           rest.2)
        else
          let rest := kmpGo t p lps fuel (i + 1) j
          (cmp :: ⟨.increment, none, none, none, none, none⟩ :: rest.1, rest.2)
    else ([], [])

/-- `buildKMPSteps` (src/src/App.jsx:404-451): the KMP trace and match list.
Each loop iteration decreases `2 * (t.length - i) + j` by at least one
(using `lps` entry bounds), so fuel `2 * t.length + 1` suffices. -/
def buildKMPSteps (t p : List Char) : List Step × List Nat :=
  let lps := (computeLPS p).1
  let r := kmpGo t p lps (2 * t.length + 1) 0 0
  (r.1 ++ [⟨.complete, none, none, none, none, none⟩], r.2)

/-- `computeBadChar` (src/src/App.jsx:455-459): the JS object mapping a
character to its last occurrence index in the pattern, built left to right
with overwrite on repeats; embedded as a lookup function (`none` for a
character absent from the object). -/
def computeBadChar (p : List Char) : Char → Option Nat :=
  (List.range p.length).foldl
    (fun f i c => if c = p.getD i ' ' then some i else f c)
    (fun _ => none)

/-- Inner `while (j <= m && p[i-1] !== p[j-1])` loop of `computeGoodSuffix`
(src/src/App.jsx:472-475).  Returns the updated shift table and the final
`j`.  Fuel is consumed once per iteration; the loop is always called with
fuel `m + 2`, enough because `j` strictly increases along `borderPos` and
is bounded by `m + 1`. -/
def gsInner (p : List Char) (m : Nat) : Nat → List Nat → List Nat → Nat → Nat →
    List Nat × Nat
  | 0, shift, _, _, j => (shift, j)
  | fuel + 1, shift, bp, i, j =>
    if j ≤ m ∧ ¬(p.getD (i - 1) ' ' = p.getD (j - 1) ' ') then
      let shift1 := if shift.getD j 0 = m then shift.set j (j - i) else shift
      gsInner p m fuel shift1 bp i (bp.getD j 0)
    else (shift, j)

/-- Outer `while (i > 0)` loop of `computeGoodSuffix` (first pass,
src/src/App.jsx:471-478), structural recursion on `i`.  After the inner
loop, `i` and `j` are decremented together and `borderPos[i]` is set. -/
def gsOuter (p : List Char) (m : Nat) : Nat → Nat → List Nat → List Nat →
    List Nat × List Nat × Nat
  | 0, j, shift, bp => (shift, bp, j)
  | i + 1, j, shift, bp =>
    let r := gsInner p m (m + 2) shift bp (i + 1) j
    gsOuter p m i (r.2 - 1) r.1 (bp.set i (r.2 - 1))

/-- Second pass `for (i = 0; i <= m; i++)` of `computeGoodSuffix`
(src/src/App.jsx:479-483), recursion on the remaining iteration count `k`
(called with `k = m + 1`, `i = 0`). -/
def gsPass2 (m : Nat) (bp : List Nat) : Nat → Nat → Nat → List Nat → List Nat
  | 0, _, _, shift => shift
  | k + 1, i, j, shift =>
    let shift1 := if shift.getD i 0 = m then shift.set i j else shift
    let j1 := if i = j then bp.getD j 0 else j
    gsPass2 m bp k (i + 1) j1 shift1

/-- `computeGoodSuffix` (src/src/App.jsx:462-486): the two-pass good-suffix
shift table of length `m + 1`.  The unused JS local `suff` is omitted.
`shift` is initialised to the sentinel `m`, `borderPos` to zeros with
`borderPos[m] = m + 1`; the final `.slice(0, m + 1)` is `take (m + 1)`. -/
def computeGoodSuffix (p : List Char) : List Nat :=
  let m := p.length
  let shift0 := List.replicate (m + 1) m
  let bp0 := (List.replicate (m + 1) 0).set m (m + 1)
  let r := gsOuter p m m (m + 1) shift0 bp0
  let shift1 := gsPass2 m r.2.1 (m + 1) 0 (r.2.1.getD 0 0) r.1
  shift1.take (m + 1)

/-- Inner `while (j >= 0 && pattern[j] === text[s+j])` loop of `buildBMSteps`
(src/src/App.jsx:499-510).  The argument is `j + 1` (so `0` encodes the JS
`j < 0`, i.e. a full match); returns the matching compare steps in push
order and the final `j + 1`. -/
def bmInner (t p : List Char) (s : Nat) : Nat → List Step × Nat
  | 0 => ([], 0)
  | jj + 1 =>
    if p.getD jj ' ' = t.getD (s + jj) ' ' then
      let r := bmInner t p s jj
      (⟨.compare, some s, some (s + p.length - 1), some (s + jj),
          some ⟨s + jj, jj, true⟩, some true⟩ :: r.1,
       r.2)
    else ([], jj + 1)

/-- Outer `while (s <= n - m)` loop of `buildBMSteps`
(src/src/App.jsx:496-535).  The JS guard `s <= n - m` is over JS numbers,
i.e. `s + m ≤ n` over the integers, which is how it is written here over
`Nat`.  `good[0] ?? 1` is `getD 0 1`; `good[j+1] ?? m` is `getD (j+1) m`;
the bad-character shift `Math.max(1, j - lastOcc)` (with `lastOcc = -1`
for an absent character) is computed over `Int` and is at least 1, so
`toNat` is faithful.  Fuel is consumed once per iteration. -/
def bmGo (t p : List Char) (bad : Char → Option Nat) (good : List Nat) :
    Nat → Nat → List Step × List Nat
  | 0, _ => ([], [])
  | fuel + 1, s =>
    if s + p.length ≤ t.length then
      let m := p.length
      let alignStep : Step := ⟨.align, some s, some (s + m - 1), none, none, none⟩
      let r := bmInner t p s m
      if r.2 = 0 then
        let shift := good.getD 0 1
        let rest := bmGo t p bad good fuel (s + shift)
        (alignStep :: r.1 ++
            ⟨.matchFound s, some s, some (s + m - 1), none, none, none⟩ ::
            ⟨.shiftDecision none none shift, some (s + shift), none, none, none,
              none⟩ :: rest.1,
         s :: rest.2)
      else
        let j := r.2 - 1
        let c := t.getD (s + j) ' '
        let lastOcc : Int := match bad c with | some k => (k : Int) | none => -1
        let bcShift : Nat := (max 1 ((j : Int) - lastOcc)).toNat
        let gsShift : Nat := good.getD (j + 1) m
        let shift := max bcShift gsShift
        let rest := bmGo t p bad good fuel (s + shift)
        (alignStep :: r.1 ++
            ⟨.compare, some s, some (s + m - 1), some (s + j),
              some ⟨s + j, j, false⟩, some false⟩ ::
            ⟨.shiftDecision (some bcShift) (some gsShift) shift,
              some (s + shift), none, none, none, none⟩ :: rest.1,
         rest.2)
    else ([], [])

/-- `buildBMSteps` (src/src/App.jsx:489-538): the Boyer-Moore trace and
match list.  Every iteration advances `s` by at least 1 (proved below), so
fuel `t.length + 1` suffices. -/
def buildBMSteps (t p : List Char) : List Step × List Nat :=
  let r := bmGo t p (computeBadChar p) (computeGoodSuffix p) (t.length + 1) 0
  (r.1 ++ [⟨.complete, none, none, none, none, none⟩], r.2)

/-- The pure lookup inside `jumpToComparison` (src/src/App.jsx:33-49): the
index of the first step whose recorded comparison has the given
coordinates.  The JS `findIndex` result `-1` (the code then only logs)
is the explicit absent result `none` here. -/
def jumpToComparison (steps : List Step) (textIndex patternIndex : Nat) :
    Option Nat :=
  steps.findIdx? fun st =>
    match st.lastComparison with
    | some c => c.textIndex == textIndex && c.patternIndex == patternIndex
    | none => false

/-- Reference brute-force scan: every window start at which the pattern
occurs in the text, in ascending order. -/
def bruteForceMatches (t p : List Char) : List Nat :=
  (List.range (t.length + 1 - p.length)).filter fun q =>
    (t.drop q).take p.length == p

/-! ### List plumbing -/

lemma getD_set_self {l : List Nat} {i a : Nat} (h : i < l.length) :
    (l.set i a).getD i 0 = a := by
  simp [List.getD_eq_getElem?_getD, List.getElem?_set, h]

lemma getD_set_ne {l : List Nat} {i k a : Nat} (h : i ≠ k) :
    (l.set i a).getD k 0 = l.getD k 0 := by
  simp [List.getD_eq_getElem?_getD, List.getElem?_set_ne h]

lemma getD_replicate {n k a : Nat} (h : k < n) :
    (List.replicate n a).getD k 0 = a := by
  simp [List.getD_eq_getElem?_getD, List.getElem?_replicate, h]

lemma getD_eq_getElem {l : List Nat} {k d : Nat} (h : k < l.length) :
    l.getD k d = l[k] := by
  simp [List.getD_eq_getElem?_getD, List.getElem?_eq_getElem h]

/-! ### Good-suffix table: length and entry bounds

Invariants for the two passes of `computeGoodSuffix`: the shift table always
has length `m + 1` with entries in `[1, m]` (the sentinel `m` included), and
`borderPos` entries at already-computed indices `k` satisfy
`k < borderPos[k] ≤ m + 1`, with `borderPos[k] ≤ m` for `k < m`. -/

def ShiftBounds (m : Nat) (shift : List Nat) : Prop :=
  shift.length = m + 1 ∧ ∀ k, k ≤ m → 1 ≤ shift.getD k 0 ∧ shift.getD k 0 ≤ m

def BpBounds (m i : Nat) (bp : List Nat) : Prop :=
  bp.length = m + 1 ∧ ∀ k, i ≤ k → k ≤ m →
    k < bp.getD k 0 ∧ bp.getD k 0 ≤ m + 1 ∧ (k < m → bp.getD k 0 ≤ m)

lemma gsInner_bounds (p : List Char) (m : Nat) :
    ∀ fuel shift bp i j, 1 ≤ i → i < j →
      ShiftBounds m shift → BpBounds m i bp →
      ShiftBounds m (gsInner p m fuel shift bp i j).1 ∧
      i < (gsInner p m fuel shift bp i j).2 ∧
      (j ≤ m + 1 → (gsInner p m fuel shift bp i j).2 ≤ m + 1) := by
  intro fuel
  induction fuel with
  | zero => intro shift bp i j hi hij hs _; exact ⟨hs, hij, fun h => h⟩
  | succ fuel ih =>
    intro shift bp i j hi hij hs hbp
    by_cases hg : j ≤ m ∧ ¬(p.getD (i - 1) ' ' = p.getD (j - 1) ' ')
    · rw [gsInner, if_pos hg]
      have hjm : j ≤ m := hg.1
      have hbpj := hbp.2 j (le_of_lt hij) hjm
      have hnext : i < bp.getD j 0 := lt_trans hij hbpj.1
      have hnext2 : bp.getD j 0 ≤ m + 1 := hbpj.2.1
      have hs1 : ShiftBounds m (if shift.getD j 0 = m then shift.set j (j - i) else shift) := by
        by_cases hw : shift.getD j 0 = m
        · rw [if_pos hw]
          constructor
          · rw [List.length_set]; exact hs.1
          · intro k hk
            by_cases hkj : j = k
            · subst hkj
              rw [getD_set_self (by rw [hs.1]; omega)]
              omega
            · rw [getD_set_ne hkj]; exact hs.2 k hk
        · rw [if_neg hw]; exact hs
      have := ih _ bp i (bp.getD j 0) hi hnext hs1 hbp
      exact ⟨this.1, this.2.1, fun _ => this.2.2 hnext2⟩
    · rw [gsInner, if_neg hg]
      exact ⟨hs, hij, fun h => h⟩

lemma gsOuter_bounds (p : List Char) (m : Nat) :
    ∀ i j shift bp, i ≤ m → i < j → j ≤ m + 1 →
      ShiftBounds m shift → BpBounds m i bp →
      ShiftBounds m (gsOuter p m i j shift bp).1 ∧
      BpBounds m 0 (gsOuter p m i j shift bp).2.1 := by
  intro i
  induction i with
  | zero =>
    intro j shift bp _ _ _ hs hbp
    exact ⟨hs, hbp⟩
  | succ i ih =>
    intro j shift bp him hij hjm hs hbp
    rw [gsOuter]
    have hin := gsInner_bounds p m (m + 2) shift bp (i + 1) j (by omega) hij hs hbp
    set r := gsInner p m (m + 2) shift bp (i + 1) j with hr
    have hj1 : i + 1 < r.2 := hin.2.1
    have hj2 : r.2 ≤ m + 1 := hin.2.2 hjm
    have hbp' : BpBounds m i (bp.set i (r.2 - 1)) := by
      constructor
      · rw [List.length_set]; exact hbp.1
      · intro k hk hkm
        by_cases hik : i = k
        · subst hik
          rw [getD_set_self (by rw [hbp.1]; omega)]
          omega
        · rw [getD_set_ne hik]
          exact hbp.2 k (by omega) hkm
    exact ih (r.2 - 1) r.1 (bp.set i (r.2 - 1)) (by omega) (by omega) (by omega)
      hin.1 hbp'

lemma gsPass2_bounds (m : Nat) (bp : List Nat) (hbp : BpBounds m 0 bp) :
    ∀ k i j shift, i + k = m + 1 →
      (k = 0 ∨ (i ≤ j ∧ 1 ≤ j ∧ j ≤ m)) → ShiftBounds m shift →
      ShiftBounds m (gsPass2 m bp k i j shift) := by
  intro k
  induction k with
  | zero => intro i j shift _ _ hs; exact hs
  | succ k ih =>
    intro i j shift hk hj hs
    have hj' : i ≤ j ∧ 1 ≤ j ∧ j ≤ m := by
      rcases hj with h | h
      · omega
      · exact h
    rw [gsPass2]
    have him : i ≤ m := by omega
    have hs1 : ShiftBounds m (if shift.getD i 0 = m then shift.set i j else shift) := by
      by_cases hw : shift.getD i 0 = m
      · rw [if_pos hw]
        constructor
        · rw [List.length_set]; exact hs.1
        · intro l hl
          by_cases hil : i = l
          · subst hil
            rw [getD_set_self (by rw [hs.1]; omega)]
            omega
          · rw [getD_set_ne hil]; exact hs.2 l hl
      · rw [if_neg hw]; exact hs
    apply ih (i + 1) _ _ (by omega) _ hs1
    by_cases hkz : k = 0
    · exact Or.inl hkz
    · right
      by_cases hij : i = j
      · subst hij
        have hbpi := hbp.2 i (Nat.zero_le i) him
        have him' : i < m := by omega
        have h2 := hbpi.2.2 him'
        rw [if_pos rfl]
        exact ⟨by omega, by omega, h2⟩
      · rw [if_neg hij]
        omega

lemma computeGoodSuffix_bounds (p : List Char) (hm : 1 ≤ p.length) :
    (computeGoodSuffix p).length = p.length + 1 ∧
    ∀ k, k ≤ p.length →
      1 ≤ (computeGoodSuffix p).getD k 0 ∧ (computeGoodSuffix p).getD k 0 ≤ p.length := by
  set m := p.length with hmdef
  have hs0 : ShiftBounds m (List.replicate (m + 1) m) := by
    refine ⟨List.length_replicate _ _, fun k hk => ?_⟩
    rw [getD_replicate (by omega)]
    omega
  have hbp0 : BpBounds m m ((List.replicate (m + 1) 0).set m (m + 1)) := by
    constructor
    · rw [List.length_set, List.length_replicate]
    · intro k hk hkm
      have hkm' : k = m := le_antisymm hkm hk
      subst hkm'
      rw [getD_set_self (by rw [List.length_replicate]; omega)]
      omega
  have houter := gsOuter_bounds p m m (m + 1) _ _ (le_refl m) (by omega) (by omega) hs0 hbp0
  set r := gsOuter p m m (m + 1) (List.replicate (m + 1) m)
    ((List.replicate (m + 1) 0).set m (m + 1)) with hrdef
  have hbpr : BpBounds m 0 r.2.1 := houter.2
  have hj0 : 1 ≤ r.2.1.getD 0 0 ∧ r.2.1.getD 0 0 ≤ m := by
    have := hbpr.2 0 (le_refl 0) (by omega)
    exact ⟨by omega, this.2.2 (by omega)⟩
  have hp2 := gsPass2_bounds m r.2.1 hbpr (m + 1) 0 (r.2.1.getD 0 0) r.1
    (by omega) (Or.inr ⟨by omega, hj0.1, hj0.2⟩) houter.1
  have hlen : (gsPass2 m r.2.1 (m + 1) 0 (r.2.1.getD 0 0) r.1).length = m + 1 := hp2.1
  constructor
  · show (List.take (m + 1) _).length = m + 1
    rw [List.length_take, hlen]
    omega
  · intro k hk
    show 1 ≤ (List.take (m + 1) _).getD k 0 ∧ (List.take (m + 1) _).getD k 0 ≤ m
    rw [List.take_of_length_le (le_of_eq hlen)]
    exact hp2.2 k hk

/-- C10: For every pattern p of length m >= 1, computeGoodSuffix returns a
sequence of exactly m + 1 integers, each of which lies between 1 and m
inclusive (in particular entry 0, the after-full-match shift, is never 0
and never the unset sentinel... the sentinel value m itself lies in the
range, and every rewritten entry does as well). -/
theorem c10_goodSuffix_entries (p : List Char) (hm : 1 ≤ p.length) :
    (computeGoodSuffix p).length = p.length + 1 ∧
    ∀ v ∈ computeGoodSuffix p, 1 ≤ v ∧ v ≤ p.length := by
  have h := computeGoodSuffix_bounds p hm
  refine ⟨h.1, fun v hv => ?_⟩
  obtain ⟨k, hk, hvk⟩ := List.mem_iff_getElem.mp hv
  have hk' : k ≤ p.length := by
    have hl := h.1
    omega
  have hb := h.2 k hk'
  rw [getD_eq_getElem hk, hvk] at hb
  exact hb

theorem c10_goodSuffix_entries_witness :
    1 ≤ ("AB".toList).length ∧
    ((computeGoodSuffix "AB".toList).length = ("AB".toList).length + 1 ∧
     ∀ v ∈ computeGoodSuffix "AB".toList, 1 ≤ v ∧ v ≤ ("AB".toList).length) :=
  ⟨by decide, c10_goodSuffix_entries "AB".toList (by decide)⟩

/-! ### Shapes of the pushed step records -/

/-- Field-presence discipline of the pushed step records: which window
fields each push site sets. -/
def FieldsOK (st : Step) : Prop :=
  match st.kind with
  | .align => st.windowStart.isSome ∧ st.windowEnd.isSome
  | .compare => st.windowStart.isSome ∧ st.windowEnd.isSome
  | .fallback _ _ => st.windowStart.isSome ∧ st.windowEnd.isSome
  | .matchFound _ => st.windowStart.isSome ∧ st.windowEnd.isSome
  | .shiftDecision _ _ _ => st.windowStart.isSome ∧ st.windowEnd = none
  | .increment => st.windowStart = none ∧ st.windowEnd = none
  | .complete => st.windowStart = none ∧ st.windowEnd = none

/-- Window/comparison invariant of a compare step (claim C7), together with
the determinacy of the recorded flag (used for C6): a recorded comparison at
(t, p) always carries the flag `text[t] == pattern[p]`. -/
def CompareOK (t p : List Char) (st : Step) : Prop :=
  ∀ c, st.lastComparison = some c →
    st.kind = .compare ∧
    c.isMatch = (t.getD c.textIndex ' ' == p.getD c.patternIndex ' ') ∧
    ∃ ws we, st.windowStart = some ws ∧ st.windowEnd = some we ∧
      ws + p.length = we + 1 ∧ ws + c.patternIndex = c.textIndex ∧
      c.textIndex ≤ we

lemma compareOK_of_none {t p : List Char} {st : Step}
    (h : st.lastComparison = none) : CompareOK t p st := by
  intro c hc
  rw [h] at hc
  exact Option.noConfusion hc

/-- Master invariant lemma for the KMP search loop: every pushed step is a
non-Complete step with the field discipline and compare-window invariant. -/
lemma kmpGo_step_props (t p : List Char) (lps : List Nat)
    (hm : 1 ≤ p.length) (hlps : ∀ k, lps.getD k 0 ≤ k) :
    ∀ fuel i j, j ≤ i → j < p.length →
      ∀ st ∈ (kmpGo t p lps fuel i j).1,
        st.kind ≠ .complete ∧ FieldsOK st ∧ CompareOK t p st := by
  intro fuel
  induction fuel with
  | zero =>
    intro i j _ _ st hst
    simp [kmpGo] at hst
  | succ fuel ih =>
    intro i j hji hjm st hst
    simp only [kmpGo] at hst
    by_cases hi : i < t.length
    · rw [if_pos hi] at hst
      by_cases hb : (t.getD i ' ' == p.getD j ' ') = true
      · rw [if_pos hb] at hst
        by_cases hfull : j + 1 = p.length
        · rw [if_pos hfull] at hst
          simp only [List.mem_cons] at hst
          rcases hst with hst | hst | hst
          · subst hst
            refine ⟨by simp, by simp [FieldsOK], ?_⟩
            intro c hc
            cases hc
            refine ⟨rfl, rfl, i - j, i - j + p.length - 1, rfl, rfl,
              by omega, by show i - j + j = i; omega,
              by show i ≤ i - j + p.length - 1; omega⟩
          · subst hst
            exact ⟨by simp, by simp [FieldsOK], compareOK_of_none rfl⟩
          · exact ih (i + 1) (lps.getD (p.length - 1) 0)
              (by have := hlps (p.length - 1); omega)
              (by have := hlps (p.length - 1); omega) st hst
        · rw [if_neg hfull] at hst
          simp only [List.mem_cons] at hst
          rcases hst with hst | hst
          · subst hst
            refine ⟨by simp, by simp [FieldsOK], ?_⟩
            intro c hc
            cases hc
            refine ⟨rfl, rfl, i - j, i - j + p.length - 1, rfl, rfl,
              by omega, by show i - j + j = i; omega,
              by show i ≤ i - j + p.length - 1; omega⟩
          · exact ih (i + 1) (j + 1) (by omega) (by omega) st hst
      · rw [if_neg hb] at hst
        by_cases hj0 : j ≠ 0
        · rw [if_pos hj0] at hst
          simp only [List.mem_cons] at hst
          rcases hst with hst | hst | hst
          · subst hst
            refine ⟨by simp, by simp [FieldsOK], ?_⟩
            intro c hc
            cases hc
            refine ⟨rfl, rfl, i - j, i - j + p.length - 1, rfl, rfl,
              by omega, by show i - j + j = i; omega,
              by show i ≤ i - j + p.length - 1; omega⟩
          · subst hst
            exact ⟨by simp, by simp [FieldsOK], compareOK_of_none rfl⟩
          · exact ih i (lps.getD (j - 1) 0)
              (by have := hlps (j - 1); omega)
              (by have := hlps (j - 1); omega) st hst
        · rw [if_neg hj0] at hst
          simp only [List.mem_cons] at hst
          rcases hst with hst | hst | hst
          · subst hst
            refine ⟨by simp, by simp [FieldsOK], ?_⟩
            intro c hc
            cases hc
            refine ⟨rfl, rfl, i - j, i - j + p.length - 1, rfl, rfl,
              by omega, by show i - j + j = i; omega,
              by show i ≤ i - j + p.length - 1; omega⟩
          · subst hst
            exact ⟨by simp, by simp [FieldsOK], compareOK_of_none rfl⟩
          · exact ih (i + 1) j (by omega) hjm st hst
    · rw [if_neg hi] at hst
      simp at hst

/-- Combined set/getD lemma covering the out-of-range no-op of `List.set`. -/
lemma getD_set {l : List Nat} {i a k : Nat} :
    (l.set i a).getD k 0 = if i = k ∧ i < l.length then a else l.getD k 0 := by
  simp only [List.getD_eq_getElem?_getD, List.getElem?_set]
  by_cases h1 : i = k
  · subst h1
    by_cases h2 : i < l.length
    · simp [h2]
    · simp [h2, List.getElem?_eq_none (by omega : l.length ≤ i)]
  · simp [h1]

lemma getD_replicate_zero {n k : Nat} : (List.replicate n 0).getD k 0 = 0 := by
  simp only [List.getD_eq_getElem?_getD, List.getElem?_replicate]
  split <;> rfl

/-- The `lps` entries never exceed their index: invariant of the
`computeLPS` loop (needed both for the KMP fuel bound and for C5/C3). -/
lemma lpsGo_le (p : List Char) :
    ∀ fuel lps log len i, (∀ k, lps.getD k 0 ≤ k) → len < i →
      ∀ k, (lpsGo p fuel lps log len i).1.getD k 0 ≤ k := by
  intro fuel
  induction fuel with
  | zero => intro lps log len i h1 _ k; exact h1 k
  | succ fuel ih =>
    intro lps log len i h1 h2 k
    simp only [lpsGo]
    by_cases hi : i < p.length
    · rw [if_pos hi]
      by_cases hc : p.getD i ' ' = p.getD len ' '
      · rw [if_pos hc]
        apply ih _ _ _ _ _ (by omega)
        intro k'
        rw [getD_set]
        split
        · omega
        · exact h1 k'
      · rw [if_neg hc]
        by_cases hl : len ≠ 0
        · rw [if_pos hl]
          exact ih _ _ _ _ (fun k' => h1 k') (by have := h1 (len - 1); omega) k
        · rw [if_neg hl]
          apply ih _ _ _ _ _ (by omega)
          intro k'
          rw [getD_set]
          split
          · omega
          · exact h1 k'
    · rw [if_neg hi]
      exact h1 k

lemma computeLPS_le (p : List Char) : ∀ k, (computeLPS p).1.getD k 0 ≤ k := by
  intro k
  unfold computeLPS
  exact lpsGo_le p _ _ _ _ _ (fun k' => by rw [getD_replicate_zero]; omega)
    (by omega) k

/-- Every step pushed by the inner BM loop is a matching compare step at
some pattern index `k < jj`. -/
lemma bmInner_steps (t p : List Char) (s : Nat) :
    ∀ jj, ∀ st ∈ (bmInner t p s jj).1, ∃ k, k < jj ∧
      p.getD k ' ' = t.getD (s + k) ' ' ∧
      st = ⟨.compare, some s, some (s + p.length - 1), some (s + k),
        some ⟨s + k, k, true⟩, some true⟩ := by
  intro jj
  induction jj with
  | zero => intro st hst; simp [bmInner] at hst
  | succ jj ih =>
    intro st hst
    simp only [bmInner] at hst
    by_cases hc : p.getD jj ' ' = t.getD (s + jj) ' '
    · rw [if_pos hc] at hst
      simp only [List.mem_cons] at hst
      rcases hst with hst | hst
      · exact ⟨jj, by omega, hc, hst⟩
      · obtain ⟨k, hk, hck, hsk⟩ := ih st hst
        exact ⟨k, by omega, hck, hsk⟩
    · rw [if_neg hc] at hst
      simp at hst

/-- Result of the inner BM loop: it is at most the starting index, all
pattern positions from it on matched, and (if nonzero) position
`(result) - 1` mismatched. -/
lemma bmInner_snd (t p : List Char) (s : Nat) :
    ∀ jj, (bmInner t p s jj).2 ≤ jj ∧
      (∀ k, (bmInner t p s jj).2 ≤ k → k < jj →
        p.getD k ' ' = t.getD (s + k) ' ') ∧
      ((bmInner t p s jj).2 ≠ 0 →
        ¬(p.getD ((bmInner t p s jj).2 - 1) ' '
          = t.getD (s + ((bmInner t p s jj).2 - 1)) ' ')) := by
  intro jj
  induction jj with
  | zero => exact ⟨le_refl 0, fun k h1 h2 => absurd h2 (by omega), fun h => absurd rfl h⟩
  | succ jj ih =>
    simp only [bmInner]
    by_cases hc : p.getD jj ' ' = t.getD (s + jj) ' '
    · rw [if_pos hc]
      refine ⟨by have := ih.1; omega, ?_, ih.2.2⟩
      intro k h1 h2
      by_cases hk : k = jj
      · subst hk; exact hc
      · exact ih.2.1 k h1 (by omega)
    · rw [if_neg hc]
      exact ⟨le_refl _, fun k h1 h2 => absurd h2 (by omega), fun _ => by simpa using hc⟩

/-- Master invariant lemma for the BM search loop: every pushed step is a
non-Complete step with the field discipline, the compare-window invariant,
and a chosen shift of at least 1 on every shift decision. -/
lemma bmGo_step_props (t p : List Char) (bad : Char → Option Nat)
    (good : List Nat) (hm : 1 ≤ p.length)
    (hglen : good.length = p.length + 1)
    (hgood : ∀ k, k ≤ p.length → 1 ≤ good.getD k 0 ∧ good.getD k 0 ≤ p.length) :
    ∀ fuel s, ∀ st ∈ (bmGo t p bad good fuel s).1,
      st.kind ≠ .complete ∧ FieldsOK st ∧ CompareOK t p st ∧
      (∀ a b ch, st.kind = .shiftDecision a b ch → 1 ≤ ch) := by
  intro fuel
  induction fuel with
  | zero => intro s st hst; simp [bmGo] at hst
  | succ fuel ih =>
    intro s st hst
    simp only [bmGo] at hst
    by_cases hg : s + p.length ≤ t.length
    · rw [if_pos hg] at hst
      have hcmp : ∀ st ∈ (bmInner t p s p.length).1,
          st.kind ≠ .complete ∧ FieldsOK st ∧ CompareOK t p st ∧
          (∀ a b ch, st.kind = .shiftDecision a b ch → 1 ≤ ch) := by
        intro st hst
        obtain ⟨k, hk, hck, hsk⟩ := bmInner_steps t p s p.length st hst
        subst hsk
        refine ⟨by simp, by simp [FieldsOK], ?_, by simp⟩
        intro c hc
        cases hc
        refine ⟨rfl, ?_, s, s + p.length - 1, rfl, rfl,
          by omega, rfl, by show s + k ≤ s + p.length - 1; omega⟩
        show true = (t.getD (s + k) ' ' == p.getD k ' ')
        rw [← hck, beq_self_eq_true]
      by_cases hfull : (bmInner t p s p.length).2 = 0
      · rw [if_pos hfull] at hst
        dsimp only at hst
        simp only [List.mem_cons, List.mem_append] at hst
        rcases hst with (hst | hst) | hst | hst | hst
        · subst hst
          exact ⟨by simp, by simp [FieldsOK], compareOK_of_none rfl, by simp⟩
        · exact hcmp st hst
        · subst hst
          exact ⟨by simp, by simp [FieldsOK], compareOK_of_none rfl, by simp⟩
        · subst hst
          refine ⟨by simp, by simp [FieldsOK], compareOK_of_none rfl, ?_⟩
          intro a b ch hch
          injection hch with h1 h2 h3
          subst h3
          have h1 := (hgood 0 (by omega)).1
          have h4 : good.getD 0 1 = good.getD 0 0 := by
            rw [getD_eq_getElem (by omega), getD_eq_getElem (by omega)]
          omega
        · exact ih (s + good.getD 0 1) st hst
      · rw [if_neg hfull] at hst
        dsimp only at hst
        have hj := bmInner_snd t p s p.length
        simp only [List.mem_cons, List.mem_append] at hst
        rcases hst with (hst | hst) | hst | hst | hst
        · subst hst
          exact ⟨by simp, by simp [FieldsOK], compareOK_of_none rfl, by simp⟩
        · exact hcmp st hst
        · subst hst
          refine ⟨by simp, by simp [FieldsOK], ?_, by simp⟩
          intro c hc
          cases hc
          have hmm := hj.2.2 hfull
          refine ⟨rfl, ?_, s, s + p.length - 1, rfl, rfl, by omega, rfl, ?_⟩
          · show false = (t.getD (s + ((bmInner t p s p.length).2 - 1)) ' '
              == p.getD ((bmInner t p s p.length).2 - 1) ' ')
            have hbf : (t.getD (s + ((bmInner t p s p.length).2 - 1)) ' '
                == p.getD ((bmInner t p s p.length).2 - 1) ' ') = false := by
              rw [beq_eq_false_iff_ne]
              intro h
              exact hmm h.symm
            rw [hbf]
          · show s + ((bmInner t p s p.length).2 - 1) ≤ s + p.length - 1
            have := hj.1
            omega
        · subst hst
          refine ⟨by simp, by simp [FieldsOK], compareOK_of_none rfl, ?_⟩
          intro a b ch hch
          injection hch with h1 h2 h3
          subst h3
          refine le_trans ?_ (le_max_left _ _)
          have h1 : (1 : Int) ≤ max 1 ((((bmInner t p s p.length).2 - 1 : Nat) : Int)
              - (match bad (t.getD (s + ((bmInner t p s p.length).2 - 1)) ' ') with
                 | some k => (k : Int) | none => -1)) := le_max_left _ _
          omega
        · exact ih _ st hst
    · rw [if_neg hg] at hst
      simp at hst


/-! ### Claim C2: pattern longer than text -/

/-- When the pattern is longer than the text, the KMP loop can never reach
`j + 1 = m`, so no match is recorded. -/
lemma kmpGo_matches_nil (t p : List Char) (lps : List Nat)
    (hlps : ∀ k, lps.getD k 0 ≤ k) (hmn : t.length < p.length) :
    ∀ fuel i j, j ≤ i → (kmpGo t p lps fuel i j).2 = [] := by
  intro fuel
  induction fuel with
  | zero => intro i j _; simp [kmpGo]
  | succ fuel ih =>
    intro i j hji
    simp only [kmpGo]
    by_cases hi : i < t.length
    · rw [if_pos hi]
      by_cases hb : (t.getD i ' ' == p.getD j ' ') = true
      · rw [if_pos hb]
        by_cases hfull : j + 1 = p.length
        · exfalso; omega
        · rw [if_neg hfull]
          exact ih (i + 1) (j + 1) (by omega)
      · rw [if_neg hb]
        by_cases hj0 : j ≠ 0
        · rw [if_pos hj0]
          exact ih i (lps.getD (j - 1) 0) (by have := hlps (j - 1); omega)
        · rw [if_neg hj0]
          exact ih (i + 1) j (by omega)
    · rw [if_neg hi]

/-- On an empty text, the KMP loop never runs. -/
lemma kmpGo_nil (p : List Char) (lps : List Nat) :
    ∀ fuel i j, kmpGo [] p lps fuel i j = ([], []) := by
  intro fuel
  cases fuel with
  | zero => intro i j; rfl
  | succ fuel => intro i j; simp [kmpGo]

/-- Any reachable KMP iteration pushes at least one step. -/
lemma kmpGo_head_nonempty (t p : List Char) (lps : List Nat) (fuel i j : Nat)
    (hi : i < t.length) : 1 ≤ (kmpGo t p lps (fuel + 1) i j).1.length := by
  simp only [kmpGo]
  rw [if_pos hi]
  by_cases hb : (t.getD i ' ' == p.getD j ' ') = true
  · rw [if_pos hb]
    by_cases hfull : j + 1 = p.length
    · rw [if_pos hfull]; simp
    · rw [if_neg hfull]; simp
  · rw [if_neg hb]
    by_cases hj0 : j ≠ 0
    · rw [if_pos hj0]; simp
    · rw [if_neg hj0]; simp

/-- C2 (amended): for every text of length n and pattern of length m with
m > n, `buildBMSteps` returns a trace of exactly one Complete step and an
empty match list, and `buildKMPSteps` returns an empty match list; but the
KMP trace consists of a single Complete step only when n = 0 — for n >= 1
the KMP loop still scans the text, so its trace has length at least 2. -/
theorem c2_pattern_longer_amended (t p : List Char) (h : t.length < p.length) :
    (buildBMSteps t p).1 = [⟨.complete, none, none, none, none, none⟩] ∧
    (buildBMSteps t p).2 = [] ∧
    (buildKMPSteps t p).2 = [] ∧
    (t.length = 0 → (buildKMPSteps t p).1 = [⟨.complete, none, none, none, none, none⟩]) ∧
    (0 < t.length → 2 ≤ (buildKMPSteps t p).1.length) := by
  have hbm : bmGo t p (computeBadChar p) (computeGoodSuffix p) (t.length + 1) 0
      = ([], []) := by
    simp only [bmGo]
    rw [if_neg (by omega)]
  refine ⟨?_, ?_, ?_, ?_, ?_⟩
  · show (bmGo t p (computeBadChar p) (computeGoodSuffix p) (t.length + 1) 0).1
        ++ [⟨.complete, none, none, none, none, none⟩] = _
    rw [hbm]
    rfl
  · show (bmGo t p (computeBadChar p) (computeGoodSuffix p) (t.length + 1) 0).2 = []
    rw [hbm]
  · show (kmpGo t p (computeLPS p).1 (2 * t.length + 1) 0 0).2 = []
    exact kmpGo_matches_nil t p _ (computeLPS_le p) h _ 0 0 (le_refl 0)
  · intro h0
    have ht : t = [] := List.length_eq_zero.mp h0
    subst ht
    show (kmpGo [] p (computeLPS p).1 (2 * ([] : List Char).length + 1) 0 0).1
        ++ [⟨.complete, none, none, none, none, none⟩] = _
    rw [kmpGo_nil]
    rfl
  · intro h0
    show 2 ≤ ((kmpGo t p (computeLPS p).1 (2 * t.length + 1) 0 0).1
        ++ [(⟨.complete, none, none, none, none, none⟩ : Step)]).length
    rw [List.length_append]
    have := kmpGo_head_nonempty t p (computeLPS p).1 (2 * t.length) 0 0 h0
    simp
    omega

theorem c2_pattern_longer_amended_witness :
    ("A".toList.length < "AA".toList.length) ∧
    ((buildBMSteps "A".toList "AA".toList).1
        = [(⟨.complete, none, none, none, none, none⟩ : Step)] ∧
     (buildBMSteps "A".toList "AA".toList).2 = [] ∧
     (buildKMPSteps "A".toList "AA".toList).2 = [] ∧
     ("A".toList.length = 0 → (buildKMPSteps "A".toList "AA".toList).1
        = [(⟨.complete, none, none, none, none, none⟩ : Step)]) ∧
     (0 < "A".toList.length → 2 ≤ (buildKMPSteps "A".toList "AA".toList).1.length)) :=
  ⟨by decide, c2_pattern_longer_amended "A".toList "AA".toList (by decide)⟩

/-- C2 counterexample: for text "A" and pattern "AA" (so m = 2 > n = 1) the
KMP trace has length 2 (a Compare step followed by Complete), not length 1
as the claim states for both generators. -/
theorem c2_counterexample :
    "A".toList.length < "AA".toList.length ∧
    (buildKMPSteps "A".toList "AA".toList).1.length = 2 ∧
    ¬((buildKMPSteps "A".toList "AA".toList).1.length = 1) := by decide



/-! ### Claims C4, C7, C8, C9: trace shape theorems -/

lemma getD_default_irrel {l : List Nat} {k d1 d2 : Nat} (h : k < l.length) :
    l.getD k d1 = l.getD k d2 := by
  rw [getD_eq_getElem h]
  rw [getD_eq_getElem h]

/-- The number of Align steps the BM loop emits from window start `s` is at
most `n + 1 - m - s` (each iteration advances `s` by its shift, which is at
least 1). -/
lemma bmGo_align_count (t p : List Char) (bad : Char → Option Nat)
    (good : List Nat) (hm : 1 ≤ p.length)
    (hglen : good.length = p.length + 1)
    (hgood : ∀ k, k ≤ p.length → 1 ≤ good.getD k 0 ∧ good.getD k 0 ≤ p.length) :
    ∀ fuel s, ((bmGo t p bad good fuel s).1.filter
        (fun st => decide (st.kind = .align))).length
      ≤ t.length + 1 - p.length - s := by
  intro fuel
  induction fuel with
  | zero => intro s; simp [bmGo]
  | succ fuel ih =>
    intro s
    simp only [bmGo]
    by_cases hg : s + p.length ≤ t.length
    · rw [if_pos hg]
      have hinner : ((bmInner t p s p.length).1.filter
          (fun st => decide (st.kind = .align))).length = 0 := by
        rw [List.length_eq_zero, List.filter_eq_nil_iff]
        intro st hst
        obtain ⟨k, _, _, hsk⟩ := bmInner_steps t p s p.length st hst
        subst hsk
        simp
      by_cases hfull : (bmInner t p s p.length).2 = 0
      · rw [if_pos hfull]
        dsimp only
        have h1 := ih (s + good.getD 0 1)
        have h2 : 1 ≤ good.getD 0 1 := by
          have h3 := (hgood 0 (by omega)).1
          have h4 : good.getD 0 1 = good.getD 0 0 :=
            getD_default_irrel (by omega)
          omega
        simp only [List.filter_append, List.filter_cons, List.length_append,
          decide_eq_true_eq]
        simp [hinner, -List.getD_eq_getElem?_getD]
        omega
      · rw [if_neg hfull]
        dsimp only
        have h1 := ih (s + max (max 1 ((((bmInner t p s p.length).2 - 1 : Nat) : Int)
              - (match bad (t.getD (s + ((bmInner t p s p.length).2 - 1)) ' ') with
                 | some k => (k : Int) | none => -1))).toNat
            (good.getD ((bmInner t p s p.length).2 - 1 + 1) p.length))
        have h2 : (1 : Int) ≤ max 1 ((((bmInner t p s p.length).2 - 1 : Nat) : Int)
              - (match bad (t.getD (s + ((bmInner t p s p.length).2 - 1)) ' ') with
                 | some k => (k : Int) | none => -1)) := le_max_left _ _
        simp only [List.filter_append, List.filter_cons, List.length_append,
          decide_eq_true_eq]
        simp [hinner, -List.getD_eq_getElem?_getD]
        omega
    · rw [if_neg hg]
      simp

/-- C4: every ShiftDecision step emitted by buildBMSteps (both the
after-full-match shift good[0] and the mismatch shift
max(badCharShift, goodSuffixShift)) records a chosen shift of at least 1,
and the outer loop runs (emits an Align step) at most n times. -/
theorem c4_bm_shift_ge_one (t p : List Char) (hm : 1 ≤ p.length) :
    (∀ st ∈ (buildBMSteps t p).1, ∀ a b ch,
        st.kind = .shiftDecision a b ch → 1 ≤ ch) ∧
    ((buildBMSteps t p).1.filter
        (fun st => decide (st.kind = .align))).length ≤ t.length := by
  have hgb := computeGoodSuffix_bounds p hm
  constructor
  · intro st hst a b ch hch
    have hst' : st ∈ (bmGo t p (computeBadChar p) (computeGoodSuffix p)
        (t.length + 1) 0).1
        ++ [(⟨.complete, none, none, none, none, none⟩ : Step)] := hst
    simp only [List.mem_append, List.mem_singleton] at hst'
    rcases hst' with hst | hst
    · exact (bmGo_step_props t p (computeBadChar p) (computeGoodSuffix p) hm
        hgb.1 hgb.2 _ 0 st hst).2.2.2 a b ch hch
    · subst hst
      exact absurd hch (by simp)
  · show (((bmGo t p (computeBadChar p) (computeGoodSuffix p) (t.length + 1) 0).1
        ++ [(⟨.complete, none, none, none, none, none⟩ : Step)]).filter
        (fun st => decide (st.kind = StepKind.align))).length ≤ t.length
    rw [List.filter_append, List.length_append]
    have h1 := bmGo_align_count t p (computeBadChar p) (computeGoodSuffix p) hm
      hgb.1 hgb.2 (t.length + 1) 0
    simp only [List.filter_cons, List.filter_nil, decide_eq_true_eq]
    rw [if_neg (by simp)]
    simp only [List.length_nil]
    omega

theorem c4_bm_shift_ge_one_witness :
    1 ≤ "AB".toList.length ∧
    ((∀ st ∈ (buildBMSteps "CAB".toList "AB".toList).1, ∀ a b ch,
        st.kind = .shiftDecision a b ch → 1 ≤ ch) ∧
     ((buildBMSteps "CAB".toList "AB".toList).1.filter
        (fun st => decide (st.kind = .align))).length ≤ "CAB".toList.length) :=
  ⟨by decide, c4_bm_shift_ge_one "CAB".toList "AB".toList (by decide)⟩

/-- C7: in both generators every step carrying a comparison has window
bounds with `windowEnd - windowStart + 1 = m` and
`windowStart ≤ textIndex ≤ windowEnd`; for KMP additionally
`windowStart = textIndex - patternIndex` (stated additively). -/
theorem c7_compare_window (t p : List Char) (hm : 1 ≤ p.length) :
    (∀ st ∈ (buildKMPSteps t p).1, ∀ c, st.lastComparison = some c →
      ∃ ws we, st.windowStart = some ws ∧ st.windowEnd = some we ∧
        ws + p.length = we + 1 ∧ ws ≤ c.textIndex ∧ c.textIndex ≤ we ∧
        ws + c.patternIndex = c.textIndex) ∧
    (∀ st ∈ (buildBMSteps t p).1, ∀ c, st.lastComparison = some c →
      ∃ ws we, st.windowStart = some ws ∧ st.windowEnd = some we ∧
        ws + p.length = we + 1 ∧ ws ≤ c.textIndex ∧ c.textIndex ≤ we) := by
  constructor
  · intro st hst c hc
    have hst' : st ∈ (kmpGo t p (computeLPS p).1 (2 * t.length + 1) 0 0).1
        ++ [(⟨.complete, none, none, none, none, none⟩ : Step)] := hst
    simp only [List.mem_append, List.mem_singleton] at hst'
    rcases hst' with hst | hst
    · have hOK := (kmpGo_step_props t p (computeLPS p).1 hm (computeLPS_le p)
        _ 0 0 (le_refl 0) (by omega) st hst).2.2 c hc
      obtain ⟨_, _, ws, we, hws, hwe, h1, h2, h3⟩ := hOK
      exact ⟨ws, we, hws, hwe, h1, by omega, h3, h2⟩
    · subst hst
      exact absurd hc (by simp)
  · intro st hst c hc
    have hgb := computeGoodSuffix_bounds p hm
    have hst' : st ∈ (bmGo t p (computeBadChar p) (computeGoodSuffix p)
        (t.length + 1) 0).1
        ++ [(⟨.complete, none, none, none, none, none⟩ : Step)] := hst
    simp only [List.mem_append, List.mem_singleton] at hst'
    rcases hst' with hst | hst
    · have hOK := (bmGo_step_props t p (computeBadChar p) (computeGoodSuffix p)
        hm hgb.1 hgb.2 _ 0 st hst).2.2.1 c hc
      obtain ⟨_, _, ws, we, hws, hwe, h1, h2, h3⟩ := hOK
      exact ⟨ws, we, hws, hwe, h1, by omega, h3⟩
    · subst hst
      exact absurd hc (by simp)

theorem c7_compare_window_witness :
    1 ≤ "AB".toList.length ∧
    ((∀ st ∈ (buildKMPSteps "AAB".toList "AB".toList).1, ∀ c,
        st.lastComparison = some c →
      ∃ ws we, st.windowStart = some ws ∧ st.windowEnd = some we ∧
        ws + "AB".toList.length = we + 1 ∧ ws ≤ c.textIndex ∧ c.textIndex ≤ we ∧
        ws + c.patternIndex = c.textIndex) ∧
     (∀ st ∈ (buildBMSteps "AAB".toList "AB".toList).1, ∀ c,
        st.lastComparison = some c →
      ∃ ws we, st.windowStart = some ws ∧ st.windowEnd = some we ∧
        ws + "AB".toList.length = we + 1 ∧ ws ≤ c.textIndex ∧ c.textIndex ≤ we)) :=
  ⟨by decide, c7_compare_window "AAB".toList "AB".toList (by decide)⟩

/-- C8 (amended): every step of either trace follows the push sites' field
discipline: the Align, Compare, Fallback and MatchFound steps carry both
window bounds; the BM ShiftDecision steps carry a windowStart but no
windowEnd; the KMP Increment steps and the terminal Complete step carry
neither bound. -/
theorem c8_fields_amended (t p : List Char) (hm : 1 ≤ p.length) :
    (∀ st ∈ (buildKMPSteps t p).1, FieldsOK st) ∧
    (∀ st ∈ (buildBMSteps t p).1, FieldsOK st) := by
  constructor
  · intro st hst
    have hst' : st ∈ (kmpGo t p (computeLPS p).1 (2 * t.length + 1) 0 0).1
        ++ [(⟨.complete, none, none, none, none, none⟩ : Step)] := hst
    simp only [List.mem_append, List.mem_singleton] at hst'
    rcases hst' with hst | hst
    · exact (kmpGo_step_props t p (computeLPS p).1 hm (computeLPS_le p)
        _ 0 0 (le_refl 0) (by omega) st hst).2.1
    · subst hst
      simp [FieldsOK]
  · intro st hst
    have hgb := computeGoodSuffix_bounds p hm
    have hst' : st ∈ (bmGo t p (computeBadChar p) (computeGoodSuffix p)
        (t.length + 1) 0).1
        ++ [(⟨.complete, none, none, none, none, none⟩ : Step)] := hst
    simp only [List.mem_append, List.mem_singleton] at hst'
    rcases hst' with hst | hst
    · exact (bmGo_step_props t p (computeBadChar p) (computeGoodSuffix p)
        hm hgb.1 hgb.2 _ 0 st hst).2.1
    · subst hst
      simp [FieldsOK]

theorem c8_fields_amended_witness :
    1 ≤ "A".toList.length ∧
    ((∀ st ∈ (buildKMPSteps "B".toList "A".toList).1, FieldsOK st) ∧
     (∀ st ∈ (buildBMSteps "B".toList "A".toList).1, FieldsOK st)) :=
  ⟨by decide, c8_fields_amended "B".toList "A".toList (by decide)⟩

/-- C8 counterexample: for text "B" and pattern "A" the KMP trace is
Compare, Increment, Complete; the Increment step at index 1 is not the
terminal Complete step and carries no window bounds at all. -/
theorem c8_counterexample :
    (buildKMPSteps "B".toList "A".toList).1[1]?
      = some ⟨.increment, none, none, none, none, none⟩ ∧
    (buildKMPSteps "B".toList "A".toList).1.length = 3 ∧
    StepKind.increment ≠ StepKind.complete := by decide

/-- C9: for both generators the trace is non-empty, ends in the Complete
step, and contains the Complete step exactly once (hence no step follows
it). -/
theorem c9_trace_complete (t p : List Char) (hm : 1 ≤ p.length) :
    ((buildKMPSteps t p).1 ≠ [] ∧
     (buildKMPSteps t p).1.getLast?
        = some ⟨.complete, none, none, none, none, none⟩ ∧
     ((buildKMPSteps t p).1.filter
        (fun st => decide (st.kind = .complete))).length = 1) ∧
    ((buildBMSteps t p).1 ≠ [] ∧
     (buildBMSteps t p).1.getLast?
        = some ⟨.complete, none, none, none, none, none⟩ ∧
     ((buildBMSteps t p).1.filter
        (fun st => decide (st.kind = .complete))).length = 1) := by
  have hgb := computeGoodSuffix_bounds p hm
  have hk : ∀ st ∈ (kmpGo t p (computeLPS p).1 (2 * t.length + 1) 0 0).1,
      st.kind ≠ StepKind.complete :=
    fun st hst => (kmpGo_step_props t p (computeLPS p).1 hm (computeLPS_le p)
      _ 0 0 (le_refl 0) (by omega) st hst).1
  have hb : ∀ st ∈ (bmGo t p (computeBadChar p) (computeGoodSuffix p)
      (t.length + 1) 0).1, st.kind ≠ StepKind.complete :=
    fun st hst => (bmGo_step_props t p (computeBadChar p) (computeGoodSuffix p)
      hm hgb.1 hgb.2 _ 0 st hst).1
  constructor
  · refine ⟨by simp [buildKMPSteps], ?_, ?_⟩
    · show ((kmpGo t p (computeLPS p).1 (2 * t.length + 1) 0 0).1
          ++ [(⟨.complete, none, none, none, none, none⟩ : Step)]).getLast? = _
      rw [List.getLast?_concat]
    · show (((kmpGo t p (computeLPS p).1 (2 * t.length + 1) 0 0).1
          ++ [(⟨.complete, none, none, none, none, none⟩ : Step)]).filter _).length = 1
      rw [List.filter_append]
      have h0 : ((kmpGo t p (computeLPS p).1 (2 * t.length + 1) 0 0).1.filter
          (fun st => decide (st.kind = StepKind.complete))) = [] := by
        rw [List.filter_eq_nil_iff]
        intro st hst
        simp only [decide_eq_true_eq]
        exact hk st hst
      rw [h0]
      simp
  · refine ⟨by simp [buildBMSteps], ?_, ?_⟩
    · show ((bmGo t p (computeBadChar p) (computeGoodSuffix p) (t.length + 1) 0).1
          ++ [(⟨.complete, none, none, none, none, none⟩ : Step)]).getLast? = _
      rw [List.getLast?_concat]
    · show (((bmGo t p (computeBadChar p) (computeGoodSuffix p) (t.length + 1) 0).1
          ++ [(⟨.complete, none, none, none, none, none⟩ : Step)]).filter _).length = 1
      rw [List.filter_append]
      have h0 : ((bmGo t p (computeBadChar p) (computeGoodSuffix p)
          (t.length + 1) 0).1.filter
          (fun st => decide (st.kind = StepKind.complete))) = [] := by
        rw [List.filter_eq_nil_iff]
        intro st hst
        simp only [decide_eq_true_eq]
        exact hb st hst
      rw [h0]
      simp
  
theorem c9_trace_complete_witness :
    1 ≤ "AB".toList.length ∧
    (((buildKMPSteps "AAB".toList "AB".toList).1 ≠ [] ∧
      (buildKMPSteps "AAB".toList "AB".toList).1.getLast?
        = some ⟨.complete, none, none, none, none, none⟩ ∧
      ((buildKMPSteps "AAB".toList "AB".toList).1.filter
        (fun st => decide (st.kind = .complete))).length = 1) ∧
     ((buildBMSteps "AAB".toList "AB".toList).1 ≠ [] ∧
      (buildBMSteps "AAB".toList "AB".toList).1.getLast?
        = some ⟨.complete, none, none, none, none, none⟩ ∧
      ((buildBMSteps "AAB".toList "AB".toList).1.filter
        (fun st => decide (st.kind = .complete))).length = 1)) :=
  ⟨by decide, c9_trace_complete "AAB".toList "AB".toList (by decide)⟩



/-! ### Claim C6: step-index lookup round trip -/

/-- `findIdx?` finds the first satisfying position: if position `k`
satisfies the predicate, the result exists, is at most `k`, and the found
element satisfies the predicate. -/
lemma findIdx?_first {α : Type} (q : α → Bool) :
    ∀ (l : List α) (k : Nat) (x : α), l[k]? = some x → q x = true →
      ∃ k', k' ≤ k ∧ ∃ y, l.findIdx? q = some k' ∧ l[k']? = some y ∧ q y = true := by
  intro l
  induction l with
  | nil => intro k x hk _; simp at hk
  | cons a l ih =>
    intro k x hk hq
    by_cases ha : q a = true
    · refine ⟨0, by omega, a, ?_, List.getElem?_cons_zero, ha⟩
      rw [List.findIdx?_cons, if_pos ha]
    · cases k with
      | zero =>
        rw [List.getElem?_cons_zero] at hk
        cases hk
        exact absurd hq ha
      | succ k =>
        rw [List.getElem?_cons_succ] at hk
        obtain ⟨k', hk', y, hfind, hy, hqy⟩ := ih k x hk hq
        refine ⟨k' + 1, by omega, y, ?_, ?_, hqy⟩
        · rw [List.findIdx?_cons, if_neg ha, List.findIdx?_succ, hfind]
          rfl
        · rw [List.getElem?_cons_succ]
          exact hy
  
/-- `findIdx?` returns the explicit absent result when nothing satisfies
the predicate. -/
lemma findIdx?_none_of_all {α : Type} (q : α → Bool) :
    ∀ l : List α, (∀ x ∈ l, q x = false) → l.findIdx? q = none := by
  intro l
  induction l with
  | nil => intro _; rfl
  | cons a l ih =>
    intro h
    rw [List.findIdx?_cons, if_neg (by simp [h a (by simp)]),
      List.findIdx?_succ, ih (fun x hx => h x (by simp [hx]))]
    rfl

/-- Round trip of the step-index lookup over any trace whose compare steps
record the determined flag: the first step found for the coordinates of a
recorded comparison carries that identical comparison. -/
lemma lookup_roundtrip_of_compareOK (t p : List Char) (tr : List Step)
    (hOK : ∀ st ∈ tr, CompareOK t p st) (k : Nat) (st : Step) (c : Comparison)
    (hk : tr[k]? = some st) (hc : st.lastComparison = some c) :
    ∃ k', k' ≤ k ∧ ∃ st',
      jumpToComparison tr c.textIndex c.patternIndex = some k' ∧
      tr[k']? = some st' ∧ st'.lastComparison = some c := by
  have hq : (fun st : Step => match st.lastComparison with
      | some c' => c'.textIndex == c.textIndex && c'.patternIndex == c.patternIndex
      | none => false) st = true := by
    simp [hc]
  obtain ⟨k', hk', y, hfind, hy, hqy⟩ :=
    findIdx?_first (fun st : Step => match st.lastComparison with
      | some c' => c'.textIndex == c.textIndex && c'.patternIndex == c.patternIndex
      | none => false) tr k st hk hq
  refine ⟨k', hk', y, hfind, hy, ?_⟩
  obtain ⟨c', hc'⟩ : ∃ c', y.lastComparison = some c' := by
    cases hcy : y.lastComparison with
    | none => rw [hcy] at hqy; simp at hqy
    | some c' => exact ⟨c', rfl⟩
  rw [hc'] at hqy
  simp only [Bool.and_eq_true, beq_iff_eq] at hqy
  obtain ⟨hti, hpi⟩ := hqy
  have h1 := (hOK st (List.getElem?_mem hk) c hc).2.1
  have h2 := (hOK y (List.getElem?_mem hy) c' hc').2.1
  have hflag : c'.isMatch = c.isMatch := by
    rw [h1, h2, hti, hpi]
  have hcc : c' = c := by
    cases c
    cases c'
    simp_all
  rw [hc', hcc]

/-- C6: for both generators and every Compare step at trace index k with
comparison c, the step-index lookup at c's coordinates returns an index at
most k whose step records an identical comparison (same text index, pattern
index and match flag); for a coordinate never compared the lookup returns
the explicit absent result `none`. -/
theorem c6_lookup_roundtrip (t p : List Char) (hm : 1 ≤ p.length) :
    (∀ k st c, (buildKMPSteps t p).1[k]? = some st →
      st.lastComparison = some c →
      ∃ k', k' ≤ k ∧ ∃ st',
        jumpToComparison (buildKMPSteps t p).1 c.textIndex c.patternIndex
          = some k' ∧
        (buildKMPSteps t p).1[k']? = some st' ∧ st'.lastComparison = some c) ∧
    (∀ k st c, (buildBMSteps t p).1[k]? = some st →
      st.lastComparison = some c →
      ∃ k', k' ≤ k ∧ ∃ st',
        jumpToComparison (buildBMSteps t p).1 c.textIndex c.patternIndex
          = some k' ∧
        (buildBMSteps t p).1[k']? = some st' ∧ st'.lastComparison = some c) ∧
    (∀ ti pi, (∀ st ∈ (buildKMPSteps t p).1, ∀ c, st.lastComparison = some c →
        ¬(c.textIndex = ti ∧ c.patternIndex = pi)) →
      jumpToComparison (buildKMPSteps t p).1 ti pi = none) ∧
    (∀ ti pi, (∀ st ∈ (buildBMSteps t p).1, ∀ c, st.lastComparison = some c →
        ¬(c.textIndex = ti ∧ c.patternIndex = pi)) →
      jumpToComparison (buildBMSteps t p).1 ti pi = none) := by
  have hgb := computeGoodSuffix_bounds p hm
  have hOKk : ∀ st ∈ (buildKMPSteps t p).1, CompareOK t p st := by
    intro st hst
    have hst' : st ∈ (kmpGo t p (computeLPS p).1 (2 * t.length + 1) 0 0).1
        ++ [(⟨.complete, none, none, none, none, none⟩ : Step)] := hst
    simp only [List.mem_append, List.mem_singleton] at hst'
    rcases hst' with hst' | hst'
    · exact (kmpGo_step_props t p (computeLPS p).1 hm (computeLPS_le p)
        _ 0 0 (le_refl 0) (by omega) st hst').2.2
    · subst hst'
      exact compareOK_of_none rfl
  have hOKb : ∀ st ∈ (buildBMSteps t p).1, CompareOK t p st := by
    intro st hst
    have hst' : st ∈ (bmGo t p (computeBadChar p) (computeGoodSuffix p)
        (t.length + 1) 0).1
        ++ [(⟨.complete, none, none, none, none, none⟩ : Step)] := hst
    simp only [List.mem_append, List.mem_singleton] at hst'
    rcases hst' with hst' | hst'
    · exact (bmGo_step_props t p (computeBadChar p) (computeGoodSuffix p)
        hm hgb.1 hgb.2 _ 0 st hst').2.2.1
    · subst hst'
      exact compareOK_of_none rfl
  refine ⟨?_, ?_, ?_, ?_⟩
  · intro k st c hk hc
    exact lookup_roundtrip_of_compareOK t p _ hOKk k st c hk hc
  · intro k st c hk hc
    exact lookup_roundtrip_of_compareOK t p _ hOKb k st c hk hc
  · intro ti pi h
    apply findIdx?_none_of_all
    intro st hst
    cases hcy : st.lastComparison with
    | none => simp
    | some c =>
      have := h st hst c hcy
      simp only [hcy]
      simp only [Bool.and_eq_false_iff, beq_eq_false_iff_ne]
      by_cases h1 : c.textIndex = ti
      · right
        intro h2
        exact this ⟨h1, h2⟩
      · left
        exact h1
  · intro ti pi h
    apply findIdx?_none_of_all
    intro st hst
    cases hcy : st.lastComparison with
    | none => simp
    | some c =>
      have := h st hst c hcy
      simp only [hcy]
      simp only [Bool.and_eq_false_iff, beq_eq_false_iff_ne]
      by_cases h1 : c.textIndex = ti
      · right
        intro h2
        exact this ⟨h1, h2⟩
      · left
        exact h1

theorem c6_lookup_roundtrip_witness :
    1 ≤ "AB".toList.length ∧
    ((∀ k st c, (buildKMPSteps "AAB".toList "AB".toList).1[k]? = some st →
      st.lastComparison = some c →
      ∃ k', k' ≤ k ∧ ∃ st',
        jumpToComparison (buildKMPSteps "AAB".toList "AB".toList).1
          c.textIndex c.patternIndex = some k' ∧
        (buildKMPSteps "AAB".toList "AB".toList).1[k']? = some st' ∧
        st'.lastComparison = some c) ∧
     (∀ k st c, (buildBMSteps "AAB".toList "AB".toList).1[k]? = some st →
      st.lastComparison = some c →
      ∃ k', k' ≤ k ∧ ∃ st',
        jumpToComparison (buildBMSteps "AAB".toList "AB".toList).1
          c.textIndex c.patternIndex = some k' ∧
        (buildBMSteps "AAB".toList "AB".toList).1[k']? = some st' ∧
        st'.lastComparison = some c) ∧
     (∀ ti pi, (∀ st ∈ (buildKMPSteps "AAB".toList "AB".toList).1, ∀ c,
        st.lastComparison = some c →
        ¬(c.textIndex = ti ∧ c.patternIndex = pi)) →
      jumpToComparison (buildKMPSteps "AAB".toList "AB".toList).1 ti pi = none) ∧
     (∀ ti pi, (∀ st ∈ (buildBMSteps "AAB".toList "AB".toList).1, ∀ c,
        st.lastComparison = some c →
        ¬(c.textIndex = ti ∧ c.patternIndex = pi)) →
      jumpToComparison (buildBMSteps "AAB".toList "AB".toList).1 ti pi = none)) :=
  ⟨by decide, c6_lookup_roundtrip "AAB".toList "AB".toList (by decide)⟩



/-! ### Claim C3: one Compare step per comparison, and the comparison bound -/

/-- The number of raw character comparisons the KMP search loop performs,
with the exact control flow of `buildKMPSteps` (one comparison per loop
iteration). -/
def kmpComparisons (t p : List Char) (lps : List Nat) : Nat → Nat → Nat → Nat
  | 0, _, _ => 0
  | fuel + 1, i, j =>
    if i < t.length then
      if t.getD i ' ' == p.getD j ' ' then
        if j + 1 = p.length then
          1 + kmpComparisons t p lps fuel (i + 1) (lps.getD (p.length - 1) 0)
        else 1 + kmpComparisons t p lps fuel (i + 1) (j + 1)
      else
        if j ≠ 0 then 1 + kmpComparisons t p lps fuel i (lps.getD (j - 1) 0)
        else 1 + kmpComparisons t p lps fuel (i + 1) j
    else 0

/-- Exactly one Compare step is pushed per raw comparison performed. -/
lemma kmpGo_compare_count (t p : List Char) (lps : List Nat) :
    ∀ fuel i j, ((kmpGo t p lps fuel i j).1.filter
        (fun st => decide (st.kind = .compare))).length
      = kmpComparisons t p lps fuel i j := by
  intro fuel
  induction fuel with
  | zero => intro i j; simp [kmpGo, kmpComparisons]
  | succ fuel ih =>
    intro i j
    by_cases hi : i < t.length
    · by_cases hb : (t.getD i ' ' == p.getD j ' ') = true
      · by_cases hfull : j + 1 = p.length
        · simp only [kmpGo, kmpComparisons, if_pos hi, if_pos hb, if_pos hfull]
          simp only [List.filter_cons, decide_eq_true_eq]
          simp [ih, -List.getD_eq_getElem?_getD]
          omega
        · simp only [kmpGo, kmpComparisons, if_pos hi, if_pos hb, if_neg hfull]
          simp only [List.filter_cons, decide_eq_true_eq]
          simp [ih, -List.getD_eq_getElem?_getD]
          omega
      · by_cases hj0 : j ≠ 0
        · simp only [kmpGo, kmpComparisons, if_pos hi, if_neg hb, if_pos hj0]
          simp only [List.filter_cons, decide_eq_true_eq]
          simp [ih, -List.getD_eq_getElem?_getD]
          omega
        · simp only [kmpGo, kmpComparisons, if_pos hi, if_neg hb, if_neg hj0]
          simp only [List.filter_cons, decide_eq_true_eq]
          simp [ih, -List.getD_eq_getElem?_getD]
          omega
    · simp [kmpGo, kmpComparisons, hi]

/-- Potential argument: from state (i, j) the loop performs at most
`2 * (n - i) + j` further comparisons. -/
lemma kmpComparisons_le (t p : List Char) (lps : List Nat)
    (hlps : ∀ k, lps.getD k 0 ≤ k) (hm : 1 ≤ p.length) :
    ∀ fuel i j, kmpComparisons t p lps fuel i j ≤ 2 * (t.length - i) + j := by
  intro fuel
  induction fuel with
  | zero => intro i j; simp [kmpComparisons]
  | succ fuel ih =>
    intro i j
    by_cases hi : i < t.length
    · by_cases hb : (t.getD i ' ' == p.getD j ' ') = true
      · by_cases hfull : j + 1 = p.length
        · simp only [kmpComparisons, if_pos hi, if_pos hb, if_pos hfull]
          have h1 := ih (i + 1) (lps.getD (p.length - 1) 0)
          have h2 := hlps (p.length - 1)
          omega
        · simp only [kmpComparisons, if_pos hi, if_pos hb, if_neg hfull]
          have h1 := ih (i + 1) (j + 1)
          omega
      · by_cases hj0 : j ≠ 0
        · simp only [kmpComparisons, if_pos hi, if_neg hb, if_pos hj0]
          have h1 := ih i (lps.getD (j - 1) 0)
          have h2 := hlps (j - 1)
          omega
        · simp only [kmpComparisons, if_pos hi, if_neg hb, if_neg hj0]
          have h1 := ih (i + 1) j
          omega
    · simp [kmpComparisons, hi]

/-- C3 (amended): the KMP trace contains exactly one Compare step per raw
character comparison the search performs, and the total number of Compare
steps is at most `2 * n` (the `n + m` bound of the claim fails, see the
counterexample). -/
theorem c3_kmp_compare_count (t p : List Char) (hm : 1 ≤ p.length) :
    ((buildKMPSteps t p).1.filter
        (fun st => decide (st.kind = .compare))).length
      = kmpComparisons t p (computeLPS p).1 (2 * t.length + 1) 0 0 ∧
    ((buildKMPSteps t p).1.filter
        (fun st => decide (st.kind = .compare))).length ≤ 2 * t.length := by
  have hbody : ((buildKMPSteps t p).1.filter
      (fun st => decide (st.kind = .compare))).length
      = ((kmpGo t p (computeLPS p).1 (2 * t.length + 1) 0 0).1.filter
        (fun st => decide (st.kind = .compare))).length := by
    show (((kmpGo t p (computeLPS p).1 (2 * t.length + 1) 0 0).1
        ++ [(⟨.complete, none, none, none, none, none⟩ : Step)]).filter
        (fun st => decide (st.kind = .compare))).length = _
    rw [List.filter_append]
    simp
  constructor
  · rw [hbody]
    exact kmpGo_compare_count t p (computeLPS p).1 (2 * t.length + 1) 0 0
  · rw [hbody, kmpGo_compare_count t p (computeLPS p).1 (2 * t.length + 1) 0 0]
    have := kmpComparisons_le t p (computeLPS p).1 (computeLPS_le p) hm
      (2 * t.length + 1) 0 0
    omega

theorem c3_kmp_compare_count_witness :
    1 ≤ "AAB".toList.length ∧
    (((buildKMPSteps "AAAAAA".toList "AAB".toList).1.filter
        (fun st => decide (st.kind = .compare))).length
      = kmpComparisons "AAAAAA".toList "AAB".toList
          (computeLPS "AAB".toList).1 (2 * "AAAAAA".toList.length + 1) 0 0 ∧
     ((buildKMPSteps "AAAAAA".toList "AAB".toList).1.filter
        (fun st => decide (st.kind = .compare))).length
      ≤ 2 * "AAAAAA".toList.length) :=
  ⟨by decide, c3_kmp_compare_count "AAAAAA".toList "AAB".toList (by decide)⟩

/-- C3 counterexample: for text "AAAAAA" (n = 6) and pattern "AAB" (m = 3)
the KMP trace contains 10 Compare steps, exceeding n + m = 9. -/
theorem c3_counterexample :
    ((buildKMPSteps "AAAAAA".toList "AAB".toList).1.filter
        (fun st => decide (st.kind = .compare))).length = 10 ∧
    "AAAAAA".toList.length + "AAB".toList.length = 9 := by decide



/-! ### Border theory (claims C5 and C1)

`IsBord p l k` says the length-`l` prefix of `p` has a proper border of
width `k` (its length-`k` prefix equals its length-`k` suffix), stated via
indices; `bordN p l` is the widest such border. -/

def IsBord (p : List Char) (l k : Nat) : Prop :=
  k < l ∧ l ≤ p.length ∧
  ∀ idx, idx < k → p.getD idx ' ' = p.getD (l - k + idx) ' '

instance (p : List Char) (l : Nat) : DecidablePred (IsBord p l) := by
  intro k
  unfold IsBord
  infer_instance

/-- Width of the longest proper border of the length-`l` prefix of `p`. -/
def bordN (p : List Char) (l : Nat) : Nat :=
  Nat.findGreatest (fun k => IsBord p l k) (l - 1)

lemma isBord_zero {p : List Char} {l : Nat} (h1 : 1 ≤ l) (h2 : l ≤ p.length) :
    IsBord p l 0 :=
  ⟨by omega, h2, fun idx hidx => absurd hidx (by omega)⟩

lemma bordN_isBord {p : List Char} {l : Nat} (h1 : 1 ≤ l) (h2 : l ≤ p.length) :
    IsBord p l (bordN p l) :=
  Nat.findGreatest_spec (Nat.zero_le _) (isBord_zero h1 h2)

lemma bordN_le {p : List Char} {l : Nat} : bordN p l ≤ l - 1 :=
  Nat.findGreatest_le _

lemma le_bordN {p : List Char} {l k : Nat} (h : IsBord p l k) : k ≤ bordN p l :=
  Nat.le_findGreatest (by have := h.1; omega) h

/-- Extension: a width-(k+1) border of the length-(l+1) prefix is a width-k
border of the length-l prefix whose next characters agree. -/
lemma isBord_succ_iff {p : List Char} {l k : Nat} :
    IsBord p (l + 1) (k + 1) ↔
    IsBord p l k ∧ p.getD k ' ' = p.getD l ' ' ∧ l + 1 ≤ p.length := by
  constructor
  · rintro ⟨h1, h2, h3⟩
    have hk : k < l := by omega
    refine ⟨⟨hk, by omega, ?_⟩, ?_, h2⟩
    · intro idx hidx
      have := h3 idx (by omega)
      rwa [show l + 1 - (k + 1) + idx = l - k + idx by omega] at this
    · have := h3 k (by omega)
      rwa [show l + 1 - (k + 1) + k = l by omega] at this
  · rintro ⟨⟨h1, h2, h3⟩, h4, h5⟩
    refine ⟨by omega, h5, ?_⟩
    intro idx hidx
    rw [show l + 1 - (k + 1) + idx = l - k + idx by omega]
    by_cases hik : idx < k
    · exact h3 idx hik
    · have hik' : idx = k := by omega
      rw [hik']
      rw [show l - k + k = l by omega]
      exact h4

/-- A border of a border is a border. -/
lemma isBord_trans {p : List Char} {l k c : Nat}
    (h1 : IsBord p l k) (h2 : IsBord p k c) : IsBord p l c := by
  obtain ⟨hk1, hk2, hk3⟩ := h1
  obtain ⟨hc1, hc2, hc3⟩ := h2
  refine ⟨by omega, hk2, ?_⟩
  intro idx hidx
  have e1 := hc3 idx hidx
  have e2 := hk3 (k - c + idx) (by omega)
  rw [show l - k + (k - c + idx) = l - c + idx by omega] at e2
  rw [e1, ← e2]

/-- Of two borders of the same prefix, the narrower is a border of the
wider. -/
lemma isBord_nested {p : List Char} {l k c : Nat}
    (h1 : IsBord p l k) (h2 : IsBord p l c) (hck : c < k) : IsBord p k c := by
  obtain ⟨hk1, hk2, hk3⟩ := h1
  obtain ⟨hc1, hc2, hc3⟩ := h2
  refine ⟨hck, by omega, ?_⟩
  intro idx hidx
  have e1 := hc3 idx hidx
  have e2 := hk3 (k - c + idx) (by omega)
  rw [show l - k + (k - c + idx) = l - c + idx by omega] at e2
  rw [e1, ← e2]

/-- The length of the `lps` list is preserved by the loop. -/
lemma lpsGo_length (p : List Char) :
    ∀ fuel lps log len i, (lpsGo p fuel lps log len i).1.length = lps.length := by
  intro fuel
  induction fuel with
  | zero => intro lps log len i; rfl
  | succ fuel ih =>
    intro lps log len i
    simp only [lpsGo]
    by_cases hi : i < p.length
    · rw [if_pos hi]
      by_cases hc : p.getD i ' ' = p.getD len ' '
      · rw [if_pos hc, ih, List.length_set]
      · rw [if_neg hc]
        by_cases hl : len ≠ 0
        · rw [if_pos hl, ih]
        · rw [if_neg hl, ih, List.length_set]
    · rw [if_neg hi]

/-- Main invariant induction for the `computeLPS` loop: it computes the
longest-proper-border widths of every prefix. -/
lemma lpsGo_correct (p : List Char) :
    ∀ fuel lps log len i,
      2 * (p.length - i) + len < fuel →
      1 ≤ i → i ≤ p.length →
      lps.length = p.length →
      (∀ k, k < i → lps.getD k 0 = bordN p (k + 1)) →
      IsBord p i len →
      (∀ b, IsBord p i b → b > len → ¬(p.getD b ' ' = p.getD i ' ')) →
      ∀ k, k < p.length →
        (lpsGo p fuel lps log len i).1.getD k 0 = bordN p (k + 1) := by
  intro fuel
  induction fuel with
  | zero => intro lps log len i hfuel; omega
  | succ fuel ih =>
    intro lps log len i hfuel hi1 hi2 hlen hprev hbord hmax k hk
    by_cases hi : i < p.length
    · simp only [lpsGo]
      rw [if_pos hi]
      by_cases hc : p.getD i ' ' = p.getD len ' '
      · rw [if_pos hc]
        have hleni : len < i := hbord.1
        have hnew : bordN p (i + 1) = len + 1 := by
          have hcand : IsBord p (i + 1) (len + 1) :=
            isBord_succ_iff.mpr ⟨hbord, hc.symm, by omega⟩
          have hub : ∀ b, IsBord p (i + 1) b → b ≤ len + 1 := by
            intro b hb
            cases b with
            | zero => omega
            | succ b =>
              obtain ⟨hb1, hb2, hb3⟩ := isBord_succ_iff.mp hb
              by_cases hbl : b > len
              · exact absurd (hb2.symm) (fun he => hmax b hb1 hbl he.symm)
              · omega
          have h1 := le_bordN hcand
          have h2 := hub _ (bordN_isBord (by omega) (by omega))
          omega
        apply ih _ _ _ _ (by omega) (by omega) (by omega)
          (by rw [List.length_set]; exact hlen) _ _ _ k hk
        · intro k' hk'
          rw [getD_set]
          by_cases hik : i = k'
          · subst hik
            rw [if_pos ⟨rfl, by omega⟩, hnew]
          · rw [if_neg (by tauto)]
            exact hprev k' (by omega)
        · exact isBord_succ_iff.mpr ⟨hbord, hc.symm, by omega⟩
        · intro b hb hbl
          have := le_bordN hb
          omega
      · rw [if_neg hc]
        by_cases hl : len ≠ 0
        · rw [if_pos hl]
          have hleni : len < i := hbord.1
          have hlps : lps.getD (len - 1) 0 = bordN p len := by
            have := hprev (len - 1) (by omega)
            rwa [show len - 1 + 1 = len by omega] at this
          have hble : bordN p len ≤ len - 1 := bordN_le
          have hbb : IsBord p len (bordN p len) := bordN_isBord (by omega) (by omega)
          apply ih _ _ _ _ (by omega) (by omega) (by omega) hlen hprev _ _ k hk
          · rw [hlps]
            exact isBord_trans hbord hbb
          · rw [hlps]
            intro b hb hbl
            by_cases hblen : b > len
            · exact hmax b hb hblen
            · by_cases hbeq : b = len
              · subst hbeq
                intro he
                exact hc he.symm
              · have hbl2 : b < len := by omega
                have := le_bordN (isBord_nested hbord hb hbl2)
                omega
        · rw [if_neg hl]
          have hlen0 : len = 0 := by omega
          subst hlen0
          have hnew : bordN p (i + 1) = 0 := by
            cases hb : bordN p (i + 1) with
            | zero => rfl
            | succ b =>
              exfalso
              have hcand : IsBord p (i + 1) (b + 1) := by
                rw [← hb]
                exact bordN_isBord (by omega) (by omega)
              obtain ⟨hb1, hb2, hb3⟩ := isBord_succ_iff.mp hcand
              by_cases hbl : b > 0
              · exact hmax b hb1 hbl hb2.symm.symm
              · have : b = 0 := by omega
                subst this
                exact hc hb2.symm
          apply ih _ _ _ _ (by omega) (by omega) (by omega)
            (by rw [List.length_set]; exact hlen) _ _ _ k hk
          · intro k' hk'
            rw [getD_set]
            by_cases hik : i = k'
            · subst hik
              rw [if_pos ⟨rfl, by omega⟩, hnew]
            · rw [if_neg (by tauto)]
              exact hprev k' (by omega)
          · exact isBord_zero (by omega) (by omega)
          · intro b hb hbl
            have := le_bordN hb
            omega
    · simp only [lpsGo]
      rw [if_neg hi]
      exact hprev k (by omega)

/-- `computeLPS` computes exactly the longest-proper-border widths. -/
lemma computeLPS_correct (p : List Char) (hm : 1 ≤ p.length) :
    ∀ k, k < p.length → (computeLPS p).1.getD k 0 = bordN p (k + 1) := by
  intro k hk
  unfold computeLPS
  apply lpsGo_correct p _ _ _ _ _ (by omega) (by omega) (by omega)
    (List.length_replicate _ _) _ (isBord_zero (by omega) (by omega)) _ k hk
  · intro k' hk'
    have hk0 : k' = 0 := by omega
    subst hk0
    rw [getD_replicate_zero]
    have h0 : bordN p (0 + 1) ≤ 0 + 1 - 1 := bordN_le
    omega
  · intro b hb hbl
    have := hb.1
    omega



/-! ### Claim C5: computeLPS against the specified border semantics -/

lemma getD_eq_getElem' {α : Type} {l : List α} {k : Nat} {d : α}
    (h : k < l.length) : l.getD k d = l[k] := by
  simp [List.getD_eq_getElem?_getD, List.getElem?_eq_getElem h]

/-- Modelled from the spec's words (§3, §4.1): `lps[i]` is the length of
the longest proper prefix of `pattern[0..i]` that is also a suffix of it. -/
def lpsSpec (p : List Char) (i : Nat) : Nat :=
  Nat.findGreatest (fun k => (p.take (i + 1)).take k <:+ p.take (i + 1)) i

/-- The spec's "proper prefix that is also a suffix of `p[0..i]`" is the
index-wise border predicate. -/
lemma take_suffix_iff_isBord {p : List Char} {i k : Nat}
    (hi : i < p.length) (hk : k ≤ i) :
    ((p.take (i + 1)).take k <:+ p.take (i + 1)) ↔ IsBord p (i + 1) k := by
  have hxlen : (p.take (i + 1)).length = i + 1 := by
    rw [List.length_take]
    omega
  have htlen : ((p.take (i + 1)).take k).length = k := by
    rw [List.length_take, hxlen]
    omega
  rw [List.suffix_iff_eq_drop, htlen, hxlen]
  constructor
  · intro h
    refine ⟨by omega, by omega, ?_⟩
    intro idx hidx
    have he : ((p.take (i + 1)).take k)[idx]?
        = ((p.take (i + 1)).drop (i + 1 - k))[idx]? := by rw [← h]
    rw [List.getElem?_take, if_pos hidx, List.getElem?_take,
      if_pos (by omega : idx < i + 1), List.getElem?_drop, List.getElem?_take,
      if_pos (by omega : i + 1 - k + idx < i + 1)] at he
    rw [List.getElem?_eq_getElem (by omega : idx < p.length),
      List.getElem?_eq_getElem (by omega : i + 1 - k + idx < p.length)] at he
    rw [getD_eq_getElem' (by omega : idx < p.length),
      getD_eq_getElem' (by omega : i + 1 - k + idx < p.length)]
    exact Option.some.inj he
  · rintro ⟨h1, h2, h3⟩
    apply List.ext_getElem?
    intro n
    by_cases hn : n < k
    · rw [List.getElem?_take, if_pos hn, List.getElem?_take,
        if_pos (by omega : n < i + 1), List.getElem?_drop, List.getElem?_take,
        if_pos (by omega : i + 1 - k + n < i + 1)]
      rw [List.getElem?_eq_getElem (by omega : n < p.length),
        List.getElem?_eq_getElem (by omega : i + 1 - k + n < p.length)]
      have := h3 n hn
      rw [getD_eq_getElem' (by omega : n < p.length),
        getD_eq_getElem' (by omega : i + 1 - k + n < p.length)] at this
      rw [this]
    · rw [List.getElem?_take, if_neg hn]
      symm
      apply List.getElem?_eq_none
      rw [List.length_drop, hxlen]
      omega

lemma bordN_eq_lpsSpec {p : List Char} {i : Nat} (hi : i < p.length) :
    bordN p (i + 1) = lpsSpec p i := by
  apply le_antisymm
  · have hb : bordN p (i + 1) ≤ i + 1 - 1 := bordN_le
    apply Nat.le_findGreatest (by omega)
    exact (take_suffix_iff_isBord hi (by omega)).mpr
      (bordN_isBord (by omega) (by omega))
  · apply le_bordN
    have h0 : (p.take (i + 1)).take 0 <:+ p.take (i + 1) := by simp
    have hspec := @Nat.findGreatest_spec 0
      (fun k => (p.take (i + 1)).take k <:+ p.take (i + 1)) inferInstance i
      (Nat.zero_le i) h0
    have hle := @Nat.findGreatest_le
      (fun k => (p.take (i + 1)).take k <:+ p.take (i + 1)) inferInstance i
    exact (take_suffix_iff_isBord hi hle).mp hspec

/-- C5: for every pattern p of length m >= 1, computeLPS returns a table of
length m with lps[0] = 0 and, for every index i < m, lps[i] equal to the
length of the longest proper prefix of p[0..i] that is also a suffix of it
(hence lps[i] <= i); in particular for pattern "AAAA" it returns
[0, 1, 2, 3]. -/
theorem c5_computeLPS_correct (p : List Char) (hm : 1 ≤ p.length) :
    (computeLPS p).1.length = p.length ∧
    (computeLPS p).1.getD 0 0 = 0 ∧
    (∀ i, i < p.length →
      (computeLPS p).1.getD i 0 = lpsSpec p i ∧
      (computeLPS p).1.getD i 0 ≤ i) ∧
    (computeLPS "AAAA".toList).1 = [0, 1, 2, 3] := by
  refine ⟨?_, ?_, ?_, by decide⟩
  · unfold computeLPS
    rw [lpsGo_length, List.length_replicate]
  · have h := computeLPS_correct p hm 0 (by omega)
    rw [h]
    have h0 : bordN p (0 + 1) ≤ 0 + 1 - 1 := bordN_le
    omega
  · intro i hi
    refine ⟨?_, computeLPS_le p i⟩
    rw [computeLPS_correct p hm i hi, bordN_eq_lpsSpec hi]

theorem c5_computeLPS_correct_witness :
    1 ≤ "AAAA".toList.length ∧
    ((computeLPS "AAAA".toList).1.length = "AAAA".toList.length ∧
     (computeLPS "AAAA".toList).1.getD 0 0 = 0 ∧
     (∀ i, i < "AAAA".toList.length →
       (computeLPS "AAAA".toList).1.getD i 0 = lpsSpec "AAAA".toList i ∧
       (computeLPS "AAAA".toList).1.getD i 0 ≤ i) ∧
     (computeLPS "AAAA".toList).1 = [0, 1, 2, 3]) :=
  ⟨by decide, c5_computeLPS_correct "AAAA".toList (by decide)⟩



/-! ### Claim C1, KMP side: the match list is the brute-force occurrence list -/

/-- Occurrence test of the brute-force reference scan. -/
def occAt (t p : List Char) (q : Nat) : Bool := (t.drop q).take p.length == p

lemma bruteForceMatches_eq_filter (t p : List Char) :
    bruteForceMatches t p
      = (List.range (t.length + 1 - p.length)).filter (occAt t p) := rfl

/-- Index characterisation of an in-range occurrence. -/
lemma occAt_iff (t p : List Char) (q : Nat) (hq : q + p.length ≤ t.length) :
    occAt t p q = true ↔
      ∀ k, k < p.length → p.getD k ' ' = t.getD (q + k) ' ' := by
  unfold occAt
  rw [beq_iff_eq]
  constructor
  · intro h k hk
    have he : ((t.drop q).take p.length)[k]? = p[k]? := by rw [h]
    rw [List.getElem?_take, if_pos hk, List.getElem?_drop] at he
    rw [List.getElem?_eq_getElem (by omega : q + k < t.length),
      List.getElem?_eq_getElem (by omega : k < p.length)] at he
    rw [getD_eq_getElem' (by omega : k < p.length),
      getD_eq_getElem' (by omega : q + k < t.length)]
    exact (Option.some.inj he).symm
  · intro h
    apply List.ext_getElem?
    intro n
    by_cases hn : n < p.length
    · rw [List.getElem?_take, if_pos hn, List.getElem?_drop]
      rw [List.getElem?_eq_getElem (by omega : q + n < t.length),
        List.getElem?_eq_getElem (by omega : n < p.length)]
      have hh := h n hn
      rw [getD_eq_getElem' (by omega : n < p.length),
        getD_eq_getElem' (by omega : q + n < t.length)] at hh
      rw [hh]
    · rw [List.getElem?_take, if_neg hn]
      symm
      exact List.getElem?_eq_none (by omega)

/-- Out-of-range windows are never occurrences (nonempty pattern). -/
lemma occAt_false_of_over (t p : List Char) (q : Nat) (hm : 1 ≤ p.length)
    (hq : t.length < q + p.length) : occAt t p q = false := by
  unfold occAt
  rw [beq_eq_false_iff_ne]
  intro h
  have hl : ((t.drop q).take p.length).length = p.length := by rw [h]
  rw [List.length_take, List.length_drop] at hl
  rw [Nat.min_def] at hl
  split at hl <;> omega

/-- Main induction for the KMP search: the matches produced from state
(i, j) are exactly the in-range occurrences at positions at least the
current window start `i - j`.  The backward (completeness) direction uses
the maximality of the failure-table borders: a skipped window start would
be a wider border than the table records. -/
lemma kmpGo_matches_iff (t p : List Char) (lps : List Nat)
    (hm : 1 ≤ p.length)
    (hlps : ∀ k, k < p.length → lps.getD k 0 = bordN p (k + 1))
    (hlpsle : ∀ k, lps.getD k 0 ≤ k) :
    ∀ fuel i j,
      2 * (t.length - i) + j < fuel →
      j ≤ i → i ≤ t.length → j < p.length →
      (∀ k, k < j → p.getD k ' ' = t.getD (i - j + k) ' ') →
      ∀ q, q ∈ (kmpGo t p lps fuel i j).2 ↔
        (occAt t p q = true ∧ i - j ≤ q ∧ q + p.length ≤ t.length) := by
  intro fuel
  induction fuel with
  | zero => intro i j hfuel; omega
  | succ fuel ih =>
    intro i j hfuel hji hin hjm hreg q
    by_cases hi : i < t.length
    · by_cases hb : (t.getD i ' ' == p.getD j ' ') = true
      · have hbeq : t.getD i ' ' = p.getD j ' ' := by
          rw [← beq_iff_eq]
          exact hb
        by_cases hfull : j + 1 = p.length
        · -- full match at start = i + 1 - m
          simp only [kmpGo]
          rw [if_pos hi, if_pos hb, if_pos hfull]
          show q ∈ (i + 1 - p.length) ::
            (kmpGo t p lps fuel (i + 1) (lps.getD (p.length - 1) 0)).2 ↔ _
          have hj2 : lps.getD (p.length - 1) 0 = bordN p p.length := by
            have := hlps (p.length - 1) (by omega)
            rwa [show p.length - 1 + 1 = p.length by omega] at this
          have hj2le : bordN p p.length ≤ p.length - 1 := bordN_le
          have hbord : IsBord p p.length (bordN p p.length) :=
            bordN_isBord (by omega) (le_refl _)
          have hocc : occAt t p (i + 1 - p.length) = true := by
            rw [occAt_iff t p _ (by omega)]
            intro k hk
            by_cases hkj : k < j
            · have := hreg k hkj
              rwa [show i - j + k = i + 1 - p.length + k by omega] at this
            · have hkj' : k = j := by omega
              subst hkj'
              rw [show i + 1 - p.length + k = i by omega]
              exact hbeq.symm
          -- the full-match region: t agrees with p on [start, i]
          have hregion : ∀ x, x < p.length →
              p.getD x ' ' = t.getD (i + 1 - p.length + x) ' ' := by
            intro x hx
            exact (occAt_iff t p _ (by omega)).mp hocc x hx
          have hih := ih (i + 1) (lps.getD (p.length - 1) 0)
            (by have := hlpsle (p.length - 1); omega)
            (by have := hlpsle (p.length - 1); omega)
            (by omega) (by omega)
            (by
              intro k hk
              rw [hj2] at hk
              have h1 := hbord.2.2 k hk
              have h2 := hregion (p.length - bordN p p.length + k)
                (by omega)
              rw [hj2]
              rw [show i + 1 - p.length + (p.length - bordN p p.length + k)
                  = i + 1 - bordN p p.length + k by omega] at h2
              rw [h1, ← h2])
          simp only [List.mem_cons, hih]
          constructor
          · rintro (hq | ⟨h1, h2, h3⟩)
            · subst hq
              exact ⟨hocc, by omega, by omega⟩
            · exact ⟨h1, by
                have := hlpsle (p.length - 1)
                omega, h3⟩
          · rintro ⟨h1, h2, h3⟩
            by_cases hqs : q = i + 1 - p.length
            · exact Or.inl hqs
            · right
              refine ⟨h1, ?_, h3⟩
              -- border argument: no occurrence strictly inside the window
              by_cases hqi : i + 1 ≤ q
              · have := hlpsle (p.length - 1)
                omega
              · -- q in (start, i]: width b = i + 1 - q is a border of p,
                -- so b ≤ bordN p p.length, hence q ≥ i + 1 - bordN
                have hq1 : i + 1 - p.length < q := by omega
                have hq2 : q ≤ i := by omega
                have hbq : IsBord p p.length (i + 1 - q) := by
                  refine ⟨by omega, le_refl _, ?_⟩
                  intro idx hidx
                  have e1 := (occAt_iff t p q h3).mp h1 idx (by omega)
                  have e2 := hregion (q - (i + 1 - p.length) + idx) (by omega)
                  rw [show i + 1 - p.length + (q - (i + 1 - p.length) + idx)
                      = q + idx by omega] at e2
                  rw [show p.length - (i + 1 - q) + idx
                      = q - (i + 1 - p.length) + idx by omega]
                  rw [e1, ← e2]
                have hble := le_bordN hbq
                rw [hj2]
                omega
        · -- partial match: window unchanged
          simp only [kmpGo]
          rw [if_pos hi, if_pos hb, if_neg hfull]
          show q ∈ (kmpGo t p lps fuel (i + 1) (j + 1)).2 ↔ _
          have hih := ih (i + 1) (j + 1) (by omega) (by omega) (by omega)
            (by omega)
            (by
              intro k hk
              by_cases hkj : k < j
              · have := hreg k hkj
                rwa [show i - j + k = i + 1 - (j + 1) + k by omega] at this
              · have hkj' : k = j := by omega
                rw [hkj']
                rw [show i + 1 - (j + 1) + j = i by omega]
                exact hbeq.symm)
          rw [hih]
          constructor
          · rintro ⟨h1, h2, h3⟩
            exact ⟨h1, by omega, h3⟩
          · rintro ⟨h1, h2, h3⟩
            exact ⟨h1, by omega, h3⟩
      · have hbne : ¬(t.getD i ' ' = p.getD j ' ') := by
          intro h
          exact hb (beq_iff_eq.mpr h)
        by_cases hj0 : j ≠ 0
        · -- mismatch with fallback to j2 = bordN p j
          simp only [kmpGo]
          rw [if_pos hi, if_neg hb, if_pos hj0]
          show q ∈ (kmpGo t p lps fuel i (lps.getD (j - 1) 0)).2 ↔ _
          have hj2 : lps.getD (j - 1) 0 = bordN p j := by
            have := hlps (j - 1) (by omega)
            rwa [show j - 1 + 1 = j by omega] at this
          have hj2le : bordN p j ≤ j - 1 := bordN_le
          have hbord : IsBord p j (bordN p j) :=
            bordN_isBord (by omega) (by omega)
          have hih := ih i (lps.getD (j - 1) 0)
            (by have := hlpsle (j - 1); omega)
            (by have := hlpsle (j - 1); omega)
            (by omega) (by omega)
            (by
              intro k hk
              rw [hj2] at hk
              have h1 := hbord.2.2 k hk
              have h2 := hreg (j - bordN p j + k) (by omega)
              rw [show i - j + (j - bordN p j + k)
                  = i - bordN p j + k by omega] at h2
              rw [hj2]
              rw [h1, ← h2])
          rw [hih]
          constructor
          · rintro ⟨h1, h2, h3⟩
            refine ⟨h1, ?_, h3⟩
            have := hlpsle (j - 1)
            omega
          · rintro ⟨h1, h2, h3⟩
            refine ⟨h1, ?_, h3⟩
            -- show i - bordN p j ≤ q for any occurrence q ≥ i - j
            rw [hj2]
            by_cases hqi : i ≤ q
            · omega
            · -- q < i, q ≥ i - j; q = i - b with 1 ≤ b ≤ j
              by_cases hqj : q = i - j
              · exfalso
                -- occurrence at the current window start needs p[j] = t[i]
                have := (occAt_iff t p q h3).mp h1 j (by omega)
                rw [show q + j = i by omega] at this
                exact hbne this.symm
              · -- q strictly inside: width b = i - q < j is a border of
                -- the length-j prefix, so b ≤ bordN p j
                have hb1 : 1 ≤ i - q := by omega
                have hb2 : i - q < j := by omega
                have hbq : IsBord p j (i - q) := by
                  refine ⟨hb2, by omega, ?_⟩
                  intro idx hidx
                  have e1 := (occAt_iff t p q h3).mp h1 idx (by omega)
                  have e2 := hreg (q - (i - j) + idx) (by omega)
                  rw [show i - j + (q - (i - j) + idx) = q + idx by omega] at e2
                  rw [show j - (i - q) + idx = q - (i - j) + idx by omega]
                  rw [e1, ← e2]
                have := le_bordN hbq
                omega
        · -- mismatch at j = 0: advance i
          have hj0' : j = 0 := by omega
          subst hj0'
          simp only [kmpGo]
          rw [if_pos hi, if_neg hb, if_neg (by omega : ¬(0 ≠ 0))]
          show q ∈ (kmpGo t p lps fuel (i + 1) 0).2 ↔ _
          have hih := ih (i + 1) 0 (by omega) (by omega) (by omega) (by omega)
            (by intro k hk; omega)
          rw [hih]
          constructor
          · rintro ⟨h1, h2, h3⟩
            exact ⟨h1, by omega, h3⟩
          · rintro ⟨h1, h2, h3⟩
            refine ⟨h1, ?_, h3⟩
            by_cases hqi : q = i
            · exfalso
              subst hqi
              have := (occAt_iff t p q h3).mp h1 0 (by omega)
              rw [Nat.add_zero] at this
              exact hbne this.symm
            · omega
    · -- loop exit: i = n; no occurrence can still lie at or past n - j
      simp only [kmpGo]
      rw [if_neg hi]
      show q ∈ ([] : List Nat) ↔ _
      constructor
      · intro h
        simp at h
      · rintro ⟨h1, h2, h3⟩
        exfalso
        omega



/-- The KMP match list is strictly increasing: each recorded match start is
below every later window start. -/
lemma kmpGo_matches_sorted (t p : List Char) (lps : List Nat)
    (hm : 1 ≤ p.length)
    (hlps : ∀ k, k < p.length → lps.getD k 0 = bordN p (k + 1))
    (hlpsle : ∀ k, lps.getD k 0 ≤ k) :
    ∀ fuel i j,
      2 * (t.length - i) + j < fuel →
      j ≤ i → i ≤ t.length → j < p.length →
      (∀ k, k < j → p.getD k ' ' = t.getD (i - j + k) ' ') →
      ((kmpGo t p lps fuel i j).2).Sorted (· < ·) := by
  intro fuel
  induction fuel with
  | zero => intro i j hfuel; omega
  | succ fuel ih =>
    intro i j hfuel hji hin hjm hreg
    by_cases hi : i < t.length
    · by_cases hb : (t.getD i ' ' == p.getD j ' ') = true
      · have hbeq : t.getD i ' ' = p.getD j ' ' := by
          rw [← beq_iff_eq]
          exact hb
        by_cases hfull : j + 1 = p.length
        · simp only [kmpGo]
          rw [if_pos hi, if_pos hb, if_pos hfull]
          show ((i + 1 - p.length) ::
            (kmpGo t p lps fuel (i + 1) (lps.getD (p.length - 1) 0)).2).Sorted _
          have hj2 : lps.getD (p.length - 1) 0 = bordN p p.length := by
            have := hlps (p.length - 1) (by omega)
            rwa [show p.length - 1 + 1 = p.length by omega] at this
          have hj2le : bordN p p.length ≤ p.length - 1 := bordN_le
          have hbord : IsBord p p.length (bordN p p.length) :=
            bordN_isBord (by omega) (le_refl _)
          have hocc : occAt t p (i + 1 - p.length) = true := by
            rw [occAt_iff t p _ (by omega)]
            intro k hk
            by_cases hkj : k < j
            · have := hreg k hkj
              rwa [show i - j + k = i + 1 - p.length + k by omega] at this
            · have hkj' : k = j := by omega
              rw [hkj', show i + 1 - p.length + j = i by omega]
              exact hbeq.symm
          have hregion : ∀ x, x < p.length →
              p.getD x ' ' = t.getD (i + 1 - p.length + x) ' ' := by
            intro x hx
            exact (occAt_iff t p _ (by omega)).mp hocc x hx
          have hreg2 : ∀ k, k < lps.getD (p.length - 1) 0 →
              p.getD k ' ' = t.getD (i + 1 - lps.getD (p.length - 1) 0 + k) ' ' := by
            intro k hk
            rw [hj2] at hk
            have h1 := hbord.2.2 k hk
            have h2 := hregion (p.length - bordN p p.length + k) (by omega)
            rw [show i + 1 - p.length + (p.length - bordN p p.length + k)
                = i + 1 - bordN p p.length + k by omega] at h2
            rw [hj2]
            rw [h1, ← h2]
          rw [List.sorted_cons]
          constructor
          · intro b hb2
            have := (kmpGo_matches_iff t p lps hm hlps hlpsle fuel (i + 1)
              (lps.getD (p.length - 1) 0)
              (by have := hlpsle (p.length - 1); omega)
              (by have := hlpsle (p.length - 1); omega)
              (by omega) (by omega) hreg2 b).mp hb2
            have := hlpsle (p.length - 1)
            omega
          · exact ih (i + 1) (lps.getD (p.length - 1) 0)
              (by have := hlpsle (p.length - 1); omega)
              (by have := hlpsle (p.length - 1); omega)
              (by omega) (by omega) hreg2
        · simp only [kmpGo]
          rw [if_pos hi, if_pos hb, if_neg hfull]
          show ((kmpGo t p lps fuel (i + 1) (j + 1)).2).Sorted _
          apply ih (i + 1) (j + 1) (by omega) (by omega) (by omega) (by omega)
          intro k hk
          by_cases hkj : k < j
          · have := hreg k hkj
            rwa [show i - j + k = i + 1 - (j + 1) + k by omega] at this
          · have hkj' : k = j := by omega
            rw [hkj', show i + 1 - (j + 1) + j = i by omega]
            exact hbeq.symm
      · by_cases hj0 : j ≠ 0
        · simp only [kmpGo]
          rw [if_pos hi, if_neg hb, if_pos hj0]
          show ((kmpGo t p lps fuel i (lps.getD (j - 1) 0)).2).Sorted _
          have hj2 : lps.getD (j - 1) 0 = bordN p j := by
            have := hlps (j - 1) (by omega)
            rwa [show j - 1 + 1 = j by omega] at this
          have hj2le : bordN p j ≤ j - 1 := bordN_le
          have hbord : IsBord p j (bordN p j) :=
            bordN_isBord (by omega) (by omega)
          apply ih i (lps.getD (j - 1) 0)
            (by have := hlpsle (j - 1); omega)
            (by have := hlpsle (j - 1); omega)
            (by omega) (by omega)
          intro k hk
          rw [hj2] at hk
          have h1 := hbord.2.2 k hk
          have h2 := hreg (j - bordN p j + k) (by omega)
          rw [show i - j + (j - bordN p j + k) = i - bordN p j + k by omega] at h2
          rw [hj2, h1, ← h2]
        · have hj0' : j = 0 := by omega
          subst hj0'
          simp only [kmpGo]
          rw [if_pos hi, if_neg hb, if_neg (by omega : ¬(0 ≠ 0))]
          show ((kmpGo t p lps fuel (i + 1) 0).2).Sorted _
          exact ih (i + 1) 0 (by omega) (by omega) (by omega) (by omega)
            (by intro k hk; omega)
    · simp only [kmpGo]
      rw [if_neg hi]
      show (([] : List Nat)).Sorted _
      simp

/-- The KMP match list equals the brute-force occurrence list. -/
lemma kmp_matches_eq_brute (t p : List Char) (hm : 1 ≤ p.length) :
    (buildKMPSteps t p).2 = bruteForceMatches t p := by
  have hlps := computeLPS_correct p hm
  have hiff := kmpGo_matches_iff t p (computeLPS p).1 hm hlps (computeLPS_le p)
    (2 * t.length + 1) 0 0 (by omega) (by omega) (by omega) (by omega)
    (by intro k hk; omega)
  have hsort := kmpGo_matches_sorted t p (computeLPS p).1 hm hlps
    (computeLPS_le p) (2 * t.length + 1) 0 0 (by omega) (by omega) (by omega)
    (by omega) (by intro k hk; omega)
  have hbsort : (bruteForceMatches t p).Sorted (· < ·) := by
    rw [bruteForceMatches_eq_filter]
    exact List.Pairwise.filter _ (List.sorted_lt_range _)
  show (kmpGo t p (computeLPS p).1 (2 * t.length + 1) 0 0).2 = _
  apply List.eq_of_perm_of_sorted _ hsort hbsort
  rw [List.perm_ext_iff_of_nodup hsort.nodup hbsort.nodup]
  intro q
  rw [hiff q, bruteForceMatches_eq_filter, List.mem_filter, List.mem_range]
  constructor
  · rintro ⟨h1, h2, h3⟩
    exact ⟨by omega, h1⟩
  · rintro ⟨h1, h2⟩
    refine ⟨h2, by omega, ?_⟩
    omega



/-! ### Claim C1, BM side: suffix borders

`SBord p i w`: the suffix of `p` starting at `i` has a proper border of
width `w` (its width-`w` prefix equals the last `w` characters of `p`).
The first pass of `computeGoodSuffix` walks these borders. -/

def SBord (p : List Char) (i w : Nat) : Prop :=
  w < p.length - i ∧
  ∀ k, k < w → p.getD (i + k) ' ' = p.getD (p.length - w + k) ' '

instance (p : List Char) (i : Nat) : DecidablePred (SBord p i) := by
  intro w
  unfold SBord
  infer_instance

/-- Width of the widest border of the suffix starting at `i`. -/
def sbordN (p : List Char) (i : Nat) : Nat :=
  Nat.findGreatest (SBord p i) (p.length - i - 1)

lemma sbord_zero {p : List Char} {i : Nat} (h : i < p.length) : SBord p i 0 :=
  ⟨by omega, fun k hk => absurd hk (by omega)⟩

lemma sbordN_isBord {p : List Char} {i : Nat} (h : i < p.length) :
    SBord p i (sbordN p i) :=
  Nat.findGreatest_spec (Nat.zero_le _) (sbord_zero h)

lemma sbordN_le {p : List Char} {i : Nat} : sbordN p i ≤ p.length - i - 1 :=
  Nat.findGreatest_le _

lemma le_sbordN {p : List Char} {i w : Nat} (h : SBord p i w) : w ≤ sbordN p i :=
  Nat.le_findGreatest (by have := h.1; omega) h

/-- A border of the border-suffix is a border of the suffix. -/
lemma sbord_trans {p : List Char} {i w' w : Nat}
    (h1 : SBord p i w') (h2 : SBord p (p.length - w') w) : SBord p i w := by
  obtain ⟨ha1, ha2⟩ := h1
  obtain ⟨hb1, hb2⟩ := h2
  refine ⟨by omega, ?_⟩
  intro k hk
  have e1 := ha2 k (by omega)
  have e2 := hb2 k hk
  rw [show p.length - w' + k = p.length - w' + k from rfl] at e2
  rw [e1, e2]

/-- Of two borders of a suffix, the narrower is a border of the wider one's
suffix copy. -/
lemma sbord_nested {p : List Char} {i w' w : Nat}
    (h1 : SBord p i w') (h2 : SBord p i w) (hw : w < w') :
    SBord p (p.length - w') w := by
  obtain ⟨ha1, ha2⟩ := h1
  obtain ⟨hb1, hb2⟩ := h2
  refine ⟨by omega, ?_⟩
  intro k hk
  have e1 := ha2 k (by omega)
  have e2 := hb2 k hk
  rw [← e1, e2]

/-- Extension: a width-(u+1) border of the suffix at `i - 1` is a width-u
border of the suffix at `i` preceded by the matching character. -/
lemma sbord_succ_iff {p : List Char} {i u : Nat} (hi : 1 ≤ i) :
    SBord p (i - 1) (u + 1) ↔
    SBord p i u ∧ p.getD (i - 1) ' ' = p.getD (p.length - u - 1) ' ' := by
  constructor
  · rintro ⟨h1, h2⟩
    refine ⟨⟨by omega, ?_⟩, ?_⟩
    · intro k hk
      have := h2 (k + 1) (by omega)
      rw [show i - 1 + (k + 1) = i + k by omega,
        show p.length - (u + 1) + (k + 1) = p.length - u + k by omega] at this
      exact this
    · have := h2 0 (by omega)
      rw [Nat.add_zero, show p.length - (u + 1) + 0 = p.length - u - 1 by omega]
        at this
      exact this
  · rintro ⟨⟨h1, h2⟩, h3⟩
    refine ⟨by omega, ?_⟩
    intro k hk
    cases k with
    | zero =>
      rw [Nat.add_zero, show p.length - (u + 1) + 0 = p.length - u - 1 by omega]
      exact h3
    | succ k =>
      have := h2 k (by omega)
      rw [show i - 1 + (k + 1) = i + k by omega,
        show p.length - (u + 1) + (k + 1) = p.length - u + k by omega]
      exact this

/-- Borders of the whole pattern in the two equivalent readings. -/
lemma sbord_zero_iff_isBord {p : List Char} {w : Nat} :
    SBord p 0 w ↔ IsBord p p.length w := by
  unfold SBord IsBord
  constructor
  · rintro ⟨h1, h2⟩
    exact ⟨by omega, le_refl _, fun idx hidx => by
      have := h2 idx hidx
      rwa [Nat.zero_add] at this⟩
  · rintro ⟨h1, _, h3⟩
    exact ⟨by omega, fun k hk => by
      have := h3 k hk
      rwa [Nat.zero_add]⟩

/-! ### The strong good-suffix rule and the pass-1 write invariant -/

/-- A strong-rule candidate shift `d` for table position `t` (a mismatch at
pattern index `t - 1` with matched suffix `p[t..m-1]`): the suffix starting
at `t` reoccurs at `t - d` and is preceded there by a different character. -/
def StrongCand (p : List Char) (t d : Nat) : Prop :=
  1 ≤ d ∧ d < t ∧ t ≤ p.length ∧
  (∀ k, k < p.length - t → p.getD (t - d + k) ' ' = p.getD (t + k) ' ') ∧
  ¬(p.getD (t - d - 1) ' ' = p.getD (t - 1) ' ')

/-- Position `t` lies on the border chain of the suffix starting at `i`. -/
def ChainPos (p : List Char) (i t : Nat) : Prop :=
  i < t ∧ t ≤ p.length ∧ SBord p i (p.length - t)

lemma strongCand_iff_chain {p : List Char} {i t : Nat}
    (h1 : 1 ≤ i) (h2 : i < t) (h3 : t ≤ p.length) :
    StrongCand p t (t - i) ↔
    ChainPos p i t ∧ ¬(p.getD (i - 1) ' ' = p.getD (t - 1) ' ') := by
  unfold StrongCand ChainPos
  constructor
  · rintro ⟨c1, c2, c3, c4, c5⟩
    refine ⟨⟨h2, h3, by omega, ?_⟩, ?_⟩
    · intro k hk
      have := c4 k (by omega)
      rwa [show t - (t - i) + k = i + k by omega,
        show t + k = p.length - (p.length - t) + k by omega] at this
    · rwa [show t - (t - i) - 1 = i - 1 by omega] at c5
  · rintro ⟨⟨d1, d2, d3, d4⟩, d5⟩
    refine ⟨by omega, by omega, h3, ?_, ?_⟩
    · intro k hk
      have hg := d4 k (by omega)
      rw [show t - (t - i) + k = i + k by omega,
        show t + k = p.length - (p.length - t) + k by omega]
      exact hg
    · rw [show t - (t - i) - 1 = i - 1 by omega]
      exact d5

/-- Pass-1 state invariant over the shift table: a sentinel entry means
every strong candidate's occurrence position is at most `i` (still to be
processed), and a written entry is the least strong candidate. -/
def ShiftInv (p : List Char) (i : Nat) (shift : List Nat) : Prop :=
  ∀ t, t ≤ p.length →
    (shift.getD t 0 = p.length → ∀ d, StrongCand p t d → t - d ≤ i) ∧
    (shift.getD t 0 ≠ p.length →
      StrongCand p t (shift.getD t 0) ∧
      ∀ d, d < shift.getD t 0 → ¬StrongCand p t d)

/-- borderPos semantics: computed entries hold the widest-border positions. -/
def BPOK (p : List Char) (i : Nat) (bp : List Nat) : Prop :=
  bp.length = p.length + 1 ∧
  bp.getD p.length 0 = p.length + 1 ∧
  ∀ k, i ≤ k → k < p.length → bp.getD k 0 = p.length - sbordN p k

/-! ### Bad-character table characterisation -/

/-- The JS object built by `computeBadChar` maps each character to its last
occurrence index in the pattern. -/
lemma computeBadChar_spec (p : List Char) (c : Char) :
    (computeBadChar p c = none → ∀ l, l < p.length → ¬(p.getD l ' ' = c)) ∧
    (∀ k, computeBadChar p c = some k →
      k < p.length ∧ p.getD k ' ' = c ∧
      ∀ l, k < l → l < p.length → ¬(p.getD l ' ' = c)) := by
  have main : ∀ N, N ≤ p.length →
      (((List.range N).foldl
          (fun f i ch => if ch = p.getD i ' ' then some i else f ch)
          (fun _ => none) c = none → ∀ l, l < N → ¬(p.getD l ' ' = c)) ∧
       (∀ k, (List.range N).foldl
          (fun f i ch => if ch = p.getD i ' ' then some i else f ch)
          (fun _ => none) c = some k →
        k < N ∧ p.getD k ' ' = c ∧ ∀ l, k < l → l < N → ¬(p.getD l ' ' = c))) := by
    intro N
    induction N with
    | zero =>
      intro _
      constructor
      · intro _ l hl
        omega
      · intro k hk
        exact absurd hk (by simp)
    | succ N ihN =>
      intro hN
      have ih := ihN (by omega)
      rw [List.range_succ, List.foldl_append, List.foldl_cons, List.foldl_nil]
      by_cases hc : c = p.getD N ' '
      · rw [if_pos hc]
        constructor
        · intro h
          exact absurd h (by simp)
        · intro k hk
          have hkN : k = N := by
            have := Option.some.inj hk
            omega
          subst hkN
          exact ⟨by omega, hc.symm, fun l hl1 hl2 => by omega⟩
      · rw [if_neg hc]
        constructor
        · intro h l hl
          by_cases hlN : l = N
          · subst hlN
            intro he
            exact hc he.symm
          · exact ih.1 h l (by omega)
        · intro k hk
          obtain ⟨e1, e2, e3⟩ := ih.2 k hk
          refine ⟨by omega, e2, ?_⟩
          intro l hl1 hl2
          by_cases hlN : l = N
          · subst hlN
            intro he
            exact hc he.symm
          · exact e3 l hl1 (by omega)
  exact main p.length (le_refl _)



/-- Full specification of the pass-1 inner walk at outer position `i`.
The walk visits the border chain of the suffix at `i` in order, writes the
least strong-candidate shift at every chain position that fails to extend
(first write wins), and stops at the first chain position that extends (or
at `m + 1`). -/
lemma gsInner_spec (p : List Char) (i : Nat) (hi1 : 1 ≤ i) (hi2 : i ≤ p.length)
    (bp : List Nat) (hbp : BPOK p i bp) :
    ∀ fuel shift j,
      p.length + 2 ≤ fuel + j →
      (ChainPos p i j ∨ j = p.length + 1) →
      (∀ t, ChainPos p i t → t < j →
        ¬(p.getD (i - 1) ' ' = p.getD (t - 1) ' ')) →
      ShiftInv p i shift →
      shift.length = p.length + 1 →
      ShiftInv p i (gsInner p p.length fuel shift bp i j).1 ∧
      (gsInner p p.length fuel shift bp i j).1.length = p.length + 1 ∧
      (∀ t, shift.getD t 0 ≠ p.length →
        (gsInner p p.length fuel shift bp i j).1.getD t 0 = shift.getD t 0) ∧
      (∀ t, ChainPos p i t → j ≤ t →
        ¬(p.getD (i - 1) ' ' = p.getD (t - 1) ' ') →
        (∀ t2, ChainPos p i t2 → t2 < t →
          ¬(p.getD (i - 1) ' ' = p.getD (t2 - 1) ' ')) →
        (gsInner p p.length fuel shift bp i j).1.getD t 0 ≠ p.length) ∧
      ((ChainPos p i (gsInner p p.length fuel shift bp i j).2 ∧
        p.getD (i - 1) ' ' = p.getD ((gsInner p p.length fuel shift bp i j).2 - 1) ' ')
        ∨ (gsInner p p.length fuel shift bp i j).2 = p.length + 1) ∧
      (∀ t, ChainPos p i t → t < (gsInner p p.length fuel shift bp i j).2 →
        ¬(p.getD (i - 1) ' ' = p.getD (t - 1) ' ')) := by
  intro fuel
  induction fuel with
  | zero =>
    intro shift j hfuel hchain _ _ _
    exfalso
    rcases hchain with hc | hc
    · have := hc.2.1
      omega
    · omega
  | succ fuel ih =>
    intro shift j hfuel hchain hbefore hSI hslen
    by_cases hg : j ≤ p.length ∧ ¬(p.getD (i - 1) ' ' = p.getD (j - 1) ' ')
    · -- the walk takes a step
      have hj : ChainPos p i j := by
        rcases hchain with hc | hc
        · exact hc
        · omega
      simp only [gsInner]
      rw [if_pos hg]
      have hwrite : ShiftInv p i
          (if shift.getD j 0 = p.length then shift.set j (j - i) else shift) ∧
          (∀ t, shift.getD t 0 ≠ p.length →
            (if shift.getD j 0 = p.length then shift.set j (j - i) else shift).getD t 0
              = shift.getD t 0) ∧
          (if shift.getD j 0 = p.length then shift.set j (j - i) else shift).getD j 0
            ≠ p.length ∧
          (if shift.getD j 0 = p.length then shift.set j (j - i) else shift).length
            = p.length + 1 := by
        by_cases hw : shift.getD j 0 = p.length
        · rw [if_pos hw]
          have hcand : StrongCand p j (j - i) :=
            (strongCand_iff_chain hi1 hj.1 hj.2.1).mpr ⟨hj, hg.2⟩
          have hmin : ∀ d, d < j - i → ¬StrongCand p j d := by
            intro d hd hcd
            have := ((hSI j hj.2.1).1 hw) d hcd
            have hd1 := hcd.1
            omega
          have hji : j - i ≠ p.length := by
            have := hj.1
            omega
          refine ⟨?_, ?_, ?_, by rw [List.length_set]; exact hslen⟩
          · intro t ht
            by_cases htj : j = t
            · subst htj
              rw [getD_set, if_pos ⟨rfl, by omega⟩]
              constructor
              · intro h
                exact absurd h hji
              · intro _
                exact ⟨hcand, hmin⟩
            · rw [getD_set, if_neg (by tauto)]
              exact hSI t ht
          · intro t ht
            by_cases htj : j = t
            · subst htj
              exact absurd hw ht
            · rw [getD_set, if_neg (by tauto)]
          · rw [getD_set, if_pos ⟨rfl, by omega⟩]
            exact hji
        · rw [if_neg hw]
          exact ⟨hSI, fun t _ => rfl, hw, hslen⟩
      -- the next chain position
      have hnext : (ChainPos p i (bp.getD j 0) ∨ bp.getD j 0 = p.length + 1) ∧
          j < bp.getD j 0 ∧
          (∀ t, ChainPos p i t → j < t → bp.getD j 0 ≤ t) := by
        by_cases hjm : j < p.length
        · have hij := hj.1
          have hbpj : bp.getD j 0 = p.length - sbordN p j :=
            hbp.2.2 j (by omega) hjm
          have hsb : sbordN p j ≤ p.length - j - 1 := sbordN_le
          have hnb : SBord p i (sbordN p j) := by
            have h1 : SBord p (p.length - (p.length - j)) (sbordN p j) := by
              rw [show p.length - (p.length - j) = j by omega]
              exact sbordN_isBord hjm
            exact sbord_trans hj.2.2 h1
          refine ⟨Or.inl ⟨by omega, by omega, ?_⟩, by omega, ?_⟩
          · rw [hbpj, show p.length - (p.length - sbordN p j) = sbordN p j by omega]
            exact hnb
          · intro t ht htj
            have h2 : SBord p j (p.length - t) := by
              have := sbord_nested hj.2.2 ht.2.2 (by have := ht.2.1; omega)
              rwa [show p.length - (p.length - j) = j by omega] at this
            have := le_sbordN h2
            have ht1 := ht.2.1
            omega
        · have hij := hj.1
          have hjm' : j = p.length := by omega
          subst hjm'
          rw [hbp.2.1]
          refine ⟨Or.inr rfl, by omega, ?_⟩
          intro t ht htj
          have := ht.2.1
          omega
      have hbefore' : ∀ t, ChainPos p i t → t < bp.getD j 0 →
          ¬(p.getD (i - 1) ' ' = p.getD (t - 1) ' ') := by
        intro t ht htlt
        by_cases htj : t < j
        · exact hbefore t ht htj
        · by_cases htj2 : t = j
          · subst htj2
            exact hg.2
          · exfalso
            have := hnext.2.2 t ht (by omega)
            omega
      have hrec := ih _ (bp.getD j 0)
        (by have := hnext.2.1; omega) hnext.1 hbefore' hwrite.1 hwrite.2.2.2
      refine ⟨hrec.1, hrec.2.1, ?_, ?_, hrec.2.2.2.2.1, hrec.2.2.2.2.2⟩
      · intro t ht
        rw [hrec.2.2.1 t (by rw [hwrite.2.1 t ht]; exact ht)]
        exact hwrite.2.1 t ht
      · intro t ht hjt hmis hprev
        by_cases htj : t = j
        · subst htj
          rw [hrec.2.2.1 t hwrite.2.2.1]
          exact hwrite.2.2.1
        · exact hrec.2.2.2.1 t ht (hnext.2.2 t ht (by omega)) hmis hprev
    · -- the walk stops here
      simp only [gsInner]
      rw [if_neg hg]
      refine ⟨hSI, hslen, fun t _ => rfl, ?_, ?_, hbefore⟩
      · intro t ht hjt hmis hprev
        exfalso
        by_cases hjm : j ≤ p.length
        · have hmj : p.getD (i - 1) ' ' = p.getD (j - 1) ' ' := by
            by_cases he : p.getD (i - 1) ' ' = p.getD (j - 1) ' '
            · exact he
            · exact absurd ⟨hjm, he⟩ hg
          by_cases htj : t = j
          · subst htj
            exact hmis hmj
          · have hcj : ChainPos p i j := by
              rcases hchain with hc | hc
              · exact hc
              · exfalso
                omega
            exact hprev j hcj (by omega) hmj
        · rcases hchain with hc | hc
          · have := hc.2.1
            omega
          · have := ht.2.1
            omega
      · rcases hchain with hc | hc
        · left
          refine ⟨hc, ?_⟩
          by_cases he : p.getD (i - 1) ' ' = p.getD (j - 1) ' '
          · exact he
          · exact absurd ⟨hc.2.1, he⟩ hg
        · exact Or.inr hc

/-- A positive widest border of the suffix at `i` produces a chain position
of the suffix at `i + 1` whose preceding character matches `p[i]`. -/
lemma sbordN_pos_chain {p : List Char} {i : Nat} (hi : i + 1 ≤ p.length)
    (hpos : 1 ≤ sbordN p i) :
    ChainPos p (i + 1) (p.length - (sbordN p i - 1)) ∧
    p.getD (i + 1 - 1) ' ' = p.getD (p.length - (sbordN p i - 1) - 1) ' ' := by
  have hb' : SBord p (i + 1 - 1) ((sbordN p i - 1) + 1) := by
    rw [show (sbordN p i - 1) + 1 = sbordN p i by omega]
    exact sbordN_isBord (by omega)
  obtain ⟨hb1, hb2⟩ := (sbord_succ_iff (show 1 ≤ i + 1 by omega)).mp hb'
  have hb1' := hb1.1
  refine ⟨⟨by omega, by omega, ?_⟩, hb2⟩
  rw [show p.length - (p.length - (sbordN p i - 1)) = sbordN p i - 1 by omega]
  exact hb1

/-- Full specification of the first pass of `computeGoodSuffix`: from a
valid outer state, the pass ends with the shift table holding exactly the
least strong-candidate shifts (sentinel where none exists) and the fully
computed border-position table. -/
lemma gsOuter_spec (p : List Char) :
    ∀ I j shift bp,
      I ≤ p.length →
      ((I = p.length ∧ j = p.length + 1) ∨
        (I < p.length ∧ j = p.length - sbordN p I)) →
      BPOK p I bp →
      ShiftInv p I shift →
      shift.length = p.length + 1 →
      ShiftInv p 0 (gsOuter p p.length I j shift bp).1 ∧
      (gsOuter p p.length I j shift bp).1.length = p.length + 1 ∧
      BPOK p 0 (gsOuter p p.length I j shift bp).2.1 := by
  intro I
  induction I with
  | zero =>
    intro j shift bp _ _ hbp hSI hslen
    exact ⟨hSI, hslen, hbp⟩
  | succ i ih =>
    intro j shift bp hIle hentry hbp hSI hslen
    have hchain : ChainPos p (i + 1) j ∨ j = p.length + 1 := by
      rcases hentry with ⟨h1, h2⟩ | ⟨h1, h2⟩
      · exact Or.inr h2
      · left
        have hsb := sbordN_le (p := p) (i := i + 1)
        refine ⟨by omega, by omega, ?_⟩
        rw [h2, show p.length - (p.length - sbordN p (i + 1))
          = sbordN p (i + 1) by omega]
        exact sbordN_isBord h1
    have hjmin : ∀ t, ChainPos p (i + 1) t → j ≤ t := by
      intro t ht
      have h1 := ht.1
      have h2 := ht.2.1
      have h3 := ht.2.2.1
      rcases hentry with ⟨he1, he2⟩ | ⟨he1, he2⟩
      · omega
      · have := le_sbordN ht.2.2
        omega
    have hbefore : ∀ t, ChainPos p (i + 1) t → t < j →
        ¬(p.getD (i + 1 - 1) ' ' = p.getD (t - 1) ' ') := by
      intro t ht htj
      exact absurd (hjmin t ht) (by omega)
    obtain ⟨sh1, jfin, hsh1, hjfin⟩ : ∃ sh1 jfin,
        (gsInner p p.length (p.length + 2) shift bp (i + 1) j).1 = sh1 ∧
        (gsInner p p.length (p.length + 2) shift bp (i + 1) j).2 = jfin :=
      ⟨_, _, rfl, rfl⟩
    have hinner := gsInner_spec p (i + 1) (by omega) hIle bp hbp (p.length + 2)
      shift j (by omega) hchain hbefore hSI hslen
    rw [hsh1, hjfin] at hinner
    have hgo : gsOuter p p.length (i + 1) j shift bp
        = gsOuter p p.length i (jfin - 1) sh1 (bp.set i (jfin - 1)) := by
      simp only [gsOuter]
      rw [hsh1, hjfin]
    rw [hgo]
    have hA := hinner.1
    have hlen1 := hinner.2.1
    have hD := hinner.2.2.2.1
    have hE := hinner.2.2.2.2.1
    have hF := hinner.2.2.2.2.2
    -- the exit value encodes the widest border of the suffix at `i`
    have hfin : jfin - 1 = p.length - sbordN p i := by
      rcases hE with ⟨hc, hmatch⟩ | hc
      · have hc1 := hc.1
        have hc2 := hc.2.1
        have hnew' : SBord p i (p.length - jfin + 1) := by
          have hnew : SBord p (i + 1 - 1) ((p.length - jfin) + 1) :=
            (sbord_succ_iff (show 1 ≤ i + 1 by omega)).mpr
              ⟨hc.2.2, by
                rw [show p.length - (p.length - jfin) - 1 = jfin - 1 by omega]
                exact hmatch⟩
          exact hnew
        have hlow := le_sbordN hnew'
        have hmax : sbordN p i ≤ p.length - jfin + 1 := by
          by_contra hgt
          obtain ⟨ht, hmt⟩ := sbordN_pos_chain hIle (by omega)
          have := ht.2.2.1
          exact absurd hmt (hF _ ht (by omega))
        omega
      · have hz : sbordN p i = 0 := by
          by_contra hnz
          obtain ⟨ht, hmt⟩ := sbordN_pos_chain hIle (by omega)
          have h2 := ht.2.1
          exact absurd hmt (hF _ ht (by omega))
        omega
    have hbp' : BPOK p i (bp.set i (jfin - 1)) := by
      obtain ⟨hl, hm1, hk⟩ := hbp
      refine ⟨by rw [List.length_set]; exact hl, ?_, ?_⟩
      · rw [getD_set, if_neg (by intro hcon; omega)]
        exact hm1
      · intro k hk1 hk2
        by_cases hki : i = k
        · rw [getD_set, if_pos ⟨hki, by omega⟩, ← hki]
          exact hfin
        · rw [getD_set, if_neg (by intro hcon; exact hki hcon.1)]
          exact hk k (by omega) hk2
    have hSI' : ShiftInv p i sh1 := by
      intro t ht
      refine ⟨?_, (hA t ht).2⟩
      intro hsent d hd
      have hle := (hA t ht).1 hsent d hd
      by_contra hgt
      have hd1 := hd.1
      have hd2 := hd.2.1
      have hd' : StrongCand p t (t - (i + 1)) := by
        rw [show t - (i + 1) = d by omega]
        exact hd
      have hct := (strongCand_iff_chain (show 1 ≤ i + 1 by omega)
        (show i + 1 < t by omega) ht).mp hd'
      by_cases hcase : t < jfin
      · exact hD t hct.1 (hjmin t hct.1) hct.2
          (fun t2 ht2 hlt => hF t2 ht2 (by omega)) hsent
      · by_cases hcase2 : t = jfin
        · rcases hE with ⟨hc, hmatch⟩ | hc
          · exact hct.2 (by rw [hcase2]; exact hmatch)
          · have := hct.1.2.1
            omega
        · rcases hE with ⟨hc, hmatch⟩ | hc
          · have hcjt : ChainPos p jfin t := by
              refine ⟨by omega, hct.1.2.1, ?_⟩
              have hn := sbord_nested hc.2.2 hct.1.2.2
                (by
                  have h1 := hct.1.2.1
                  have h2 := hc.1
                  omega)
              rwa [show p.length - (p.length - jfin) = jfin by
                have := hc.2.1
                omega] at hn
            have hsc2 : StrongCand p t (t - jfin) :=
              (strongCand_iff_chain (show 1 ≤ jfin by have := hc.1; omega)
                (show jfin < t by omega) ht).mpr
                ⟨hcjt, fun he => hct.2 (hmatch.trans he)⟩
            have hcontra := (hA t ht).1 hsent (t - jfin) hsc2
            have := hc.1
            omega
          · have := hct.1.2.1
            omega
    exact ih (jfin - 1) sh1 (bp.set i (jfin - 1)) (by omega)
      (Or.inr ⟨by omega, hfin⟩) hbp' hSI' hlen1

/-! ### The second pass: whole-pattern borders -/

/-- The widest whole-pattern border of width at most `m - i`. -/
def WBp (p : List Char) (i : Nat) : Nat :=
  Nat.findGreatest (SBord p 0) (p.length - i)

lemma WBp_le {p : List Char} {i : Nat} : WBp p i ≤ p.length - i :=
  Nat.findGreatest_le _

lemma WBp_zero {p : List Char} (hm : 1 ≤ p.length) : WBp p 0 = sbordN p 0 := by
  unfold WBp sbordN
  rw [show p.length - 0 - 1 = p.length - 1 by omega,
    show p.length - 0 = (p.length - 1) + 1 by omega,
    Nat.findGreatest_of_not (by intro hcon; have := hcon.1; omega)]

/-- Below a whole-pattern border at position `i`, whole-pattern borders and
borders of the suffix at `i` coincide. -/
lemma sbord_shift {p : List Char} {i w : Nat} (hb : SBord p 0 (p.length - i))
    (hi : i < p.length) (hw : w < p.length - i) : SBord p 0 w ↔ SBord p i w := by
  obtain ⟨hb1, hb2⟩ := hb
  have hb2' : ∀ k, k < p.length - i → p.getD k ' ' = p.getD (i + k) ' ' := by
    intro k hk
    have := hb2 k hk
    rwa [Nat.zero_add, show p.length - (p.length - i) + k = i + k by omega] at this
  constructor
  · rintro ⟨h1, h2⟩
    refine ⟨hw, ?_⟩
    intro k hk
    rw [← hb2' k (by omega)]
    have := h2 k hk
    rwa [Nat.zero_add] at this
  · rintro ⟨h1, h2⟩
    refine ⟨by omega, ?_⟩
    intro k hk
    rw [Nat.zero_add, hb2' k (by omega)]
    exact h2 k hk

/-- The chain pointer is unchanged over a position that is not on the
whole-pattern border chain. -/
lemma WBp_succ_of_lt {p : List Char} {i : Nat} (h : WBp p i < p.length - i) :
    WBp p (i + 1) = WBp p i := by
  have hprops := Nat.findGreatest_eq_iff.1
    (rfl : Nat.findGreatest (SBord p 0) (p.length - i) = WBp p i)
  show Nat.findGreatest (SBord p 0) (p.length - (i + 1)) = WBp p i
  rw [Nat.findGreatest_eq_iff]
  refine ⟨by omega, hprops.2.1, ?_⟩
  intro n hn1 hn2
  exact hprops.2.2 hn1 (by omega)

/-- Advancing the chain pointer over a chain position follows the computed
border-position table. -/
lemma WBp_succ_of_eq {p : List Char} {i : Nat} (hi : i < p.length)
    (h : WBp p i = p.length - i) :
    WBp p (i + 1) = sbordN p i := by
  have h' : Nat.findGreatest (SBord p 0) (p.length - i) = p.length - i := h
  have hb : SBord p 0 (p.length - i) := by
    have hprops := Nat.findGreatest_eq_iff.1
      (rfl : Nat.findGreatest (SBord p 0) (p.length - i) = WBp p i)
    have hx := hprops.2.1 (by omega)
    rwa [h'] at hx
  show Nat.findGreatest (SBord p 0) (p.length - (i + 1)) = sbordN p i
  rw [Nat.findGreatest_eq_iff]
  have hs1 : sbordN p i ≤ p.length - i - 1 := sbordN_le
  refine ⟨by omega, ?_, ?_⟩
  · intro hnz
    exact (sbord_shift hb hi (by omega)).mpr (sbordN_isBord hi)
  · intro n hn1 hn2 hcon
    have := le_sbordN ((sbord_shift hb hi (by omega)).mp hcon)
    omega

/-- Full specification of the second pass of `computeGoodSuffix`: each
remaining sentinel entry at position `t` is replaced by `m - WBp p t`, the
shift to the widest whole-pattern border clearing position `t`; written
entries are untouched. -/
lemma gsPass2_spec (p : List Char) (bp : List Nat) (hbp : BPOK p 0 bp) :
    ∀ k i j shift,
      i + k = p.length + 1 →
      (1 ≤ k → j = p.length - WBp p i) →
      shift.length = p.length + 1 →
      (gsPass2 p.length bp k i j shift).length = p.length + 1 ∧
      (∀ t, t < i →
        (gsPass2 p.length bp k i j shift).getD t 0 = shift.getD t 0) ∧
      (∀ t, i ≤ t → t ≤ p.length →
        (gsPass2 p.length bp k i j shift).getD t 0 =
          if shift.getD t 0 = p.length then p.length - WBp p t
          else shift.getD t 0) := by
  intro k
  induction k with
  | zero =>
    intro i j shift hik hj hlen
    refine ⟨hlen, fun t _ => rfl, ?_⟩
    intro t ht1 ht2
    omega
  | succ k ih =>
    intro i j shift hik hj hlen
    have hj' := hj (by omega)
    have hile : i ≤ p.length := by omega
    have hwble : WBp p i ≤ p.length - i := WBp_le
    simp only [gsPass2]
    have hj1 : 1 ≤ k →
        (if i = j then bp.getD j 0 else j) = p.length - WBp p (i + 1) := by
      intro hk
      have hi : i < p.length := by omega
      by_cases hij : i = j
      · rw [if_pos hij]
        have hwb : WBp p i = p.length - i := by omega
        rw [← hij, hbp.2.2 i (Nat.zero_le i) hi, WBp_succ_of_eq hi hwb]
      · rw [if_neg hij]
        rw [hj', WBp_succ_of_lt (by omega)]
    have hl1 : (if shift.getD i 0 = p.length then shift.set i j else shift).length
        = p.length + 1 := by
      by_cases hw : shift.getD i 0 = p.length
      · rw [if_pos hw, List.length_set]
        exact hlen
      · rw [if_neg hw]
        exact hlen
    have hrec := ih (i + 1) (if i = j then bp.getD j 0 else j)
      (if shift.getD i 0 = p.length then shift.set i j else shift)
      (by omega) hj1 hl1
    refine ⟨hrec.1, ?_, ?_⟩
    · intro t ht
      rw [hrec.2.1 t (by omega)]
      by_cases hw : shift.getD i 0 = p.length
      · rw [if_pos hw, getD_set_ne (by omega)]
      · rw [if_neg hw]
    · intro t ht1 ht2
      by_cases hti : t = i
      · rw [hti, hrec.2.1 i (by omega)]
        by_cases hw : shift.getD i 0 = p.length
        · rw [if_pos hw, getD_set_self (by omega), if_pos hw]
          exact hj'
        · rw [if_neg hw, if_neg hw]
      · rw [hrec.2.2 t (by omega) ht2]
        by_cases hw : shift.getD i 0 = p.length
        · rw [if_pos hw, getD_set_ne (by omega)]
        · rw [if_neg hw]

lemma getD_take {l : List Nat} {n k : Nat} (h : k < n) :
    (l.take n).getD k 0 = l.getD k 0 := by
  simp only [List.getD_eq_getElem?_getD]
  rw [List.getElem?_take, if_pos h]

/-- Safety of the good-suffix table: the entry at position `t` is at most
every strong-candidate shift at `t` and at most every whole-pattern-border
shift clearing `t`. -/
lemma computeGoodSuffix_safe (p : List Char) (hm : 1 ≤ p.length) :
    ∀ t d, t ≤ p.length →
      (StrongCand p t d ∨
        (t ≤ d ∧ d ≤ p.length ∧ SBord p 0 (p.length - d))) →
      (computeGoodSuffix p).getD t 0 ≤ d := by
  have hSI0 : ShiftInv p p.length (List.replicate (p.length + 1) p.length) := by
    intro t' ht'
    constructor
    · intro _ d' hd'
      omega
    · intro hne
      exact absurd (getD_replicate (by omega)) hne
  have hbp0 : BPOK p p.length
      ((List.replicate (p.length + 1) 0).set p.length (p.length + 1)) := by
    refine ⟨?_, ?_, ?_⟩
    · rw [List.length_set, List.length_replicate]
    · exact getD_set_self (by rw [List.length_replicate]; omega)
    · intro k hk1 hk2
      omega
  obtain ⟨sh1, bp1, hsh1, hbp1⟩ : ∃ sh1 bp1,
      (gsOuter p p.length p.length (p.length + 1)
        (List.replicate (p.length + 1) p.length)
        ((List.replicate (p.length + 1) 0).set p.length (p.length + 1))).1 = sh1 ∧
      (gsOuter p p.length p.length (p.length + 1)
        (List.replicate (p.length + 1) p.length)
        ((List.replicate (p.length + 1) 0).set p.length (p.length + 1))).2.1
        = bp1 :=
    ⟨_, _, rfl, rfl⟩
  have houter := gsOuter_spec p p.length (p.length + 1)
    (List.replicate (p.length + 1) p.length)
    ((List.replicate (p.length + 1) 0).set p.length (p.length + 1))
    (le_refl _) (Or.inl ⟨rfl, rfl⟩) hbp0 hSI0 (by rw [List.length_replicate])
  rw [hsh1, hbp1] at houter
  have hcg : computeGoodSuffix p
      = (gsPass2 p.length bp1 (p.length + 1) 0 (bp1.getD 0 0) sh1).take
          (p.length + 1) := by
    simp only [computeGoodSuffix]
    rw [hsh1, hbp1]
  have hj0 : 1 ≤ p.length + 1 → bp1.getD 0 0 = p.length - WBp p 0 := by
    intro _
    rw [houter.2.2.2.2 0 (le_refl 0) (by omega), WBp_zero hm]
  have hpass2 := gsPass2_spec p bp1 houter.2.2 (p.length + 1) 0
    (bp1.getD 0 0) sh1 (by omega) hj0 houter.2.1
  intro t d ht hcase
  have hval : (computeGoodSuffix p).getD t 0
      = if sh1.getD t 0 = p.length then p.length - WBp p t
        else sh1.getD t 0 := by
    rw [hcg, getD_take (by omega), hpass2.2.2 t (Nat.zero_le t) ht]
  rcases hcase with hsc | ⟨hd1, hd2, hd3⟩
  · by_cases hw : sh1.getD t 0 = p.length
    · exfalso
      have hc1 := (houter.1 t ht).1 hw d hsc
      have hc2 := hsc.1
      have hc3 := hsc.2.1
      omega
    · rw [hval, if_neg hw]
      by_contra hgt
      exact ((houter.1 t ht).2 hw).2 d (by omega) hsc
  · rw [hval]
    by_cases hw : sh1.getD t 0 = p.length
    · rw [if_pos hw]
      have hwb : p.length - d ≤ WBp p t :=
        Nat.le_findGreatest (by omega) hd3
      omega
    · rw [if_neg hw]
      have hsc := ((houter.1 t ht).2 hw).1
      have h1 := hsc.2.1
      omega

/-! ### Claim C1, BM side: the search loop -/

/-- Main induction for the BM search: the matches produced from window
start `s` are exactly the in-range occurrences at positions at least `s`.
Completeness of the shifts follows from the safety of the two tables. -/
lemma bmGo_matches_iff (t p : List Char) (hm : 1 ≤ p.length) :
    ∀ fuel s,
      t.length + 1 ≤ fuel + s →
      ∀ q, q ∈ (bmGo t p (computeBadChar p) (computeGoodSuffix p) fuel s).2 ↔
        (occAt t p q = true ∧ s ≤ q ∧ q + p.length ≤ t.length) := by
  have hgb := computeGoodSuffix_bounds p hm
  have hglen := hgb.1
  have hgood := hgb.2
  intro fuel
  induction fuel with
  | zero =>
    intro s hfuel q
    simp only [bmGo]
    constructor
    · intro h
      exact absurd h (List.not_mem_nil q)
    · rintro ⟨h1, h2, h3⟩
      exfalso
      omega
  | succ fuel ih =>
    intro s hfuel q
    simp only [bmGo]
    by_cases hg : s + p.length ≤ t.length
    · rw [if_pos hg]
      by_cases hfull : (bmInner t p s p.length).2 = 0
      · rw [if_pos hfull]
        dsimp only
        have hmatched := (bmInner_snd t p s p.length).2.1
        have hocc : occAt t p s = true := by
          rw [occAt_iff t p s hg]
          intro k hk
          exact hmatched k (by omega) hk
        have hgd0 : (computeGoodSuffix p).getD 0 1
            = (computeGoodSuffix p).getD 0 0 :=
          getD_default_irrel (by omega)
        have hs01 := (hgood 0 (by omega)).1
        have hs0m := (hgood 0 (by omega)).2
        have hih := ih (s + (computeGoodSuffix p).getD 0 1) (by omega) q
        simp only [List.mem_cons]
        constructor
        · intro hq
          rcases hq with hq | hq
          · exact ⟨by rw [hq]; exact hocc, by omega, by omega⟩
          · have hr := hih.mp hq
            exact ⟨hr.1, by omega, hr.2.2⟩
        · rintro ⟨hq1, hq2, hq3⟩
          by_cases hqs : q = s
          · exact Or.inl hqs
          · right
            apply hih.mpr
            refine ⟨hq1, ?_, hq3⟩
            by_contra hlt
            push_neg at hlt
            have hd1 : 1 ≤ q - s := by omega
            have hb : SBord p 0 (p.length - (q - s)) := by
              have hoq := (occAt_iff t p q hq3).mp hq1
              refine ⟨by omega, ?_⟩
              intro k hk
              rw [Nat.zero_add, show p.length - (p.length - (q - s)) + k
                = (q - s) + k by omega]
              have e1 := hmatched ((q - s) + k) (by omega) (by omega)
              have e2 := hoq k (by omega)
              rw [e2, show q + k = s + ((q - s) + k) by omega, ← e1]
            have hsafe := computeGoodSuffix_safe p hm 0 (q - s) (by omega)
              (Or.inr ⟨by omega, by omega, hb⟩)
            omega
      · rw [if_neg hfull]
        dsimp only
        obtain ⟨jj, hjj⟩ : ∃ x, (bmInner t p s p.length).2 = x := ⟨_, rfl⟩
        rw [hjj] at hfull ⊢
        have hj1 := (bmInner_snd t p s p.length).1
        have hj2 := (bmInner_snd t p s p.length).2.1
        have hj3 := (bmInner_snd t p s p.length).2.2
        rw [hjj] at hj1 hj2 hj3
        have hmis := hj3 hfull
        have h1int : (1 : Int) ≤ max 1 (((jj - 1 : Nat) : Int)
            - (match computeBadChar p (t.getD (s + (jj - 1)) ' ') with
               | some k => (k : Int)
               | none => -1)) := le_max_left _ _
        have hih := ih (s + max (max 1 (((jj - 1 : Nat) : Int)
            - (match computeBadChar p (t.getD (s + (jj - 1)) ' ') with
               | some k => (k : Int)
               | none => -1))).toNat
          ((computeGoodSuffix p).getD (jj - 1 + 1) p.length)) (by omega) q
        constructor
        · intro hq
          have hr := hih.mp hq
          refine ⟨hr.1, by
            have := hr.2.1
            omega, hr.2.2⟩
        · rintro ⟨hq1, hq2, hq3⟩
          have hoq := (occAt_iff t p q hq3).mp hq1
          have hqs : q ≠ s := by
            intro he
            apply hmis
            have hx := hoq (jj - 1) (by omega)
            rw [he] at hx
            exact hx
          apply hih.mpr
          refine ⟨hq1, ?_, hq3⟩
          by_contra hlt
          push_neg at hlt
          have hd1 : 1 ≤ q - s := by omega
          -- good-suffix rule is safe for the occurrence at q
          have hgs : (computeGoodSuffix p).getD (jj - 1 + 1) p.length ≤ q - s := by
            have hdi : (computeGoodSuffix p).getD (jj - 1 + 1) p.length
                = (computeGoodSuffix p).getD (jj - 1 + 1) 0 :=
              getD_default_irrel (by omega)
            rw [hdi, show jj - 1 + 1 = jj by omega]
            by_cases hcd : q - s < jj
            · apply computeGoodSuffix_safe p hm jj (q - s) (by omega)
              left
              refine ⟨by omega, hcd, by omega, ?_, ?_⟩
              · intro k hk
                have e1 := hoq (jj - (q - s) + k) (by omega)
                have e2 := hj2 (jj + k) (by omega) (by omega)
                rw [show q + (jj - (q - s) + k) = s + (jj + k) by omega] at e1
                rw [e1, ← e2]
              · intro hcon
                apply hmis
                have e1 := hoq (jj - (q - s) - 1) (by omega)
                rw [show q + (jj - (q - s) - 1) = s + (jj - 1) by omega] at e1
                exact (hcon.symm.trans e1)
            · push_neg at hcd
              by_cases hdm : q - s ≤ p.length
              · apply computeGoodSuffix_safe p hm jj (q - s) (by omega)
                right
                refine ⟨hcd, hdm, by omega, ?_⟩
                intro k hk
                rw [Nat.zero_add, show p.length - (p.length - (q - s)) + k
                  = (q - s) + k by omega]
                have e1 := hoq k (by omega)
                have e2 := hj2 ((q - s) + k) (by omega) (by omega)
                rw [e1, show q + k = s + ((q - s) + k) by omega, ← e2]
              · have := (hgood jj (by omega)).2
                omega
          -- bad-character rule is safe for the occurrence at q
          have hbc : ((jj - 1 : Nat) : Int)
              - (match computeBadChar p (t.getD (s + (jj - 1)) ' ') with
                 | some k => (k : Int)
                 | none => -1) ≤ ((q - s : Nat) : Int) := by
            rcases heq : computeBadChar p (t.getD (s + (jj - 1)) ' ') with _ | lo
            · show ((jj - 1 : Nat) : Int) - (-1) ≤ ((q - s : Nat) : Int)
              by_cases hcd : q - s ≤ jj - 1
              · exfalso
                have hnone :=
                  (computeBadChar_spec p (t.getD (s + (jj - 1)) ' ')).1 heq
                have e1 := hoq (jj - 1 - (q - s)) (by omega)
                rw [show q + (jj - 1 - (q - s)) = s + (jj - 1) by omega] at e1
                exact hnone (jj - 1 - (q - s)) (by omega) e1
              · push_neg at hcd
                omega
            · show ((jj - 1 : Nat) : Int) - (lo : Int) ≤ ((q - s : Nat) : Int)
              have hsome :=
                (computeBadChar_spec p (t.getD (s + (jj - 1)) ' ')).2 lo heq
              by_cases hcd : q - s ≤ jj - 1
              · have e1 := hoq (jj - 1 - (q - s)) (by omega)
                rw [show q + (jj - 1 - (q - s)) = s + (jj - 1) by omega] at e1
                have hle : jj - 1 - (q - s) ≤ lo := by
                  by_contra hgt2
                  push_neg at hgt2
                  exact hsome.2.2 (jj - 1 - (q - s)) hgt2 (by omega) e1
                omega
              · push_neg at hcd
                omega
          omega
    · rw [if_neg hg]
      constructor
      · intro h
        exact absurd h (List.not_mem_nil q)
      · rintro ⟨h1, h2, h3⟩
        exfalso
        omega

/-- The BM match list is strictly increasing. -/
lemma bmGo_matches_sorted (t p : List Char) (hm : 1 ≤ p.length) :
    ∀ fuel s,
      t.length + 1 ≤ fuel + s →
      ((bmGo t p (computeBadChar p) (computeGoodSuffix p) fuel s).2).Sorted
        (· < ·) := by
  have hgb := computeGoodSuffix_bounds p hm
  have hglen := hgb.1
  have hgood := hgb.2
  intro fuel
  induction fuel with
  | zero =>
    intro s _
    exact List.sorted_nil
  | succ fuel ih =>
    intro s hfuel
    simp only [bmGo]
    by_cases hg : s + p.length ≤ t.length
    · rw [if_pos hg]
      by_cases hfull : (bmInner t p s p.length).2 = 0
      · rw [if_pos hfull]
        dsimp only
        have hgd0 : (computeGoodSuffix p).getD 0 1
            = (computeGoodSuffix p).getD 0 0 :=
          getD_default_irrel (by omega)
        have hs01 := (hgood 0 (by omega)).1
        rw [List.sorted_cons]
        refine ⟨?_, ih (s + (computeGoodSuffix p).getD 0 1) (by omega)⟩
        intro b hb
        have hr := (bmGo_matches_iff t p hm fuel
          (s + (computeGoodSuffix p).getD 0 1) (by omega) b).mp hb
        have := hr.2.1
        omega
      · rw [if_neg hfull]
        dsimp only
        have h1int : (1 : Int) ≤
            max 1 ((((bmInner t p s p.length).2 - 1 : Nat) : Int)
            - (match computeBadChar p
                  (t.getD (s + ((bmInner t p s p.length).2 - 1)) ' ') with
               | some k => (k : Int)
               | none => -1)) := le_max_left _ _
        exact ih (s + max (max 1 ((((bmInner t p s p.length).2 - 1 : Nat) : Int)
            - (match computeBadChar p
                  (t.getD (s + ((bmInner t p s p.length).2 - 1)) ' ') with
               | some k => (k : Int)
               | none => -1))).toNat
          ((computeGoodSuffix p).getD ((bmInner t p s p.length).2 - 1 + 1)
            p.length))
          (by omega)
    · rw [if_neg hg]
      exact List.sorted_nil

/-- The BM match list equals the brute-force occurrence list. -/
lemma bm_matches_eq_brute (t p : List Char) (hm : 1 ≤ p.length) :
    (buildBMSteps t p).2 = bruteForceMatches t p := by
  have hiff := bmGo_matches_iff t p hm (t.length + 1) 0 (by omega)
  have hsort := bmGo_matches_sorted t p hm (t.length + 1) 0 (by omega)
  have hbsort : (bruteForceMatches t p).Sorted (· < ·) := by
    rw [bruteForceMatches_eq_filter]
    exact List.Pairwise.filter _ (List.sorted_lt_range _)
  show (bmGo t p (computeBadChar p) (computeGoodSuffix p) (t.length + 1) 0).2 = _
  apply List.eq_of_perm_of_sorted _ hsort hbsort
  rw [List.perm_ext_iff_of_nodup hsort.nodup hbsort.nodup]
  intro q
  rw [hiff q, bruteForceMatches_eq_filter, List.mem_filter, List.mem_range]
  constructor
  · rintro ⟨h1, h2, h3⟩
    exact ⟨by omega, h1⟩
  · rintro ⟨h1, h2⟩
    refine ⟨h2, by omega, ?_⟩
    omega

/-- **C1.** For every text and pattern with `1 ≤ |pattern| ≤ |text|`, the
match list of `buildKMPSteps` equals the match list of `buildBMSteps`, and
both equal the brute-force occurrence list, which lists the occurrence
positions in ascending order; in particular on the spec's example, text
"ABABDABACDABABCABAB" and pattern "ABABCABAB", both match lists are
`[10]`. -/
theorem c1_matches_agree (t p : List Char) (hm : 1 ≤ p.length)
    (hmn : p.length ≤ t.length) :
    (buildKMPSteps t p).2 = (buildBMSteps t p).2 ∧
    (buildKMPSteps t p).2 = bruteForceMatches t p ∧
    (buildBMSteps t p).2 = bruteForceMatches t p ∧
    ((buildBMSteps t p).2).Sorted (· < ·) ∧
    (buildKMPSteps "ABABDABACDABABCABAB".toList "ABABCABAB".toList).2
      = [10] ∧
    (buildBMSteps "ABABDABACDABABCABAB".toList "ABABCABAB".toList).2
      = [10] := by
  have h1 := kmp_matches_eq_brute t p hm
  have h2 := bm_matches_eq_brute t p hm
  refine ⟨h1.trans h2.symm, h1, h2, ?_, by decide, by decide⟩
  rw [h2, bruteForceMatches_eq_filter]
  exact List.Pairwise.filter _ (List.sorted_lt_range _)

theorem c1_matches_agree_witness :
    (1 ≤ "ABABCABAB".toList.length ∧
     "ABABCABAB".toList.length ≤ "ABABDABACDABABCABAB".toList.length) ∧
    ((buildKMPSteps "ABABDABACDABABCABAB".toList "ABABCABAB".toList).2
        = (buildBMSteps "ABABDABACDABABCABAB".toList "ABABCABAB".toList).2 ∧
     (buildKMPSteps "ABABDABACDABABCABAB".toList "ABABCABAB".toList).2
        = bruteForceMatches "ABABDABACDABABCABAB".toList "ABABCABAB".toList ∧
     (buildBMSteps "ABABDABACDABABCABAB".toList "ABABCABAB".toList).2
        = bruteForceMatches "ABABDABACDABABCABAB".toList "ABABCABAB".toList ∧
     ((buildBMSteps "ABABDABACDABABCABAB".toList "ABABCABAB".toList).2).Sorted
        (· < ·) ∧
     (buildKMPSteps "ABABDABACDABABCABAB".toList "ABABCABAB".toList).2
        = [10] ∧
     (buildBMSteps "ABABDABACDABABCABAB".toList "ABABCABAB".toList).2
        = [10]) :=
  ⟨⟨by decide, by decide⟩,
   c1_matches_agree "ABABDABACDABABCABAB".toList "ABABCABAB".toList
     (by decide) (by decide)⟩


end PatVis
